import Mathlib

/-! matebook-applet (darwin driver): log parsing and threshold argument encoding

A shallow embedding of `driver-darwin.go`. The pure part: `threshToHexArg`, `getHexValues`,
`getThreshFromLog`, `getFnlockFromLog`, together with the Go standard-library routines they
call (`strings.Index`, `strings.Split`, `strconv.ParseInt`, `strconv.FormatInt`, the `%02x`
verb of `fmt.Sprintf`). The part that acts on the outside world: `splitFnlockEndpoint.toggle`,
`splitFnlockEndpoint.isWritable`, `splitThreshEndpoint` with `zeroGetter` and `errSetter`, and
`readFromLog`, as functions on an arbitrary world state that record their calls.

Conventions.
* A Go `string` is a sequence of bytes: `GoString := List Nat`, each element a byte.
  Literals of the source are ASCII and are written `lit "..."`. Single bytes are written by
  their value: 43 `'+'`, 44 `','`, 45 `'-'`, 48..57 `'0'..'9'`, 65..70 `'A'..'F'`,
  97..102 `'a'..'f'`, 97..122 `'a'..'z'`, 120 `'x'`.
* A Go `int` / `int64` is an `Int`; `uint64` arithmetic of `ParseUint` carries an
  explicit `% 2 ^ 64`.
* A Go `(T, error)` result is `Except String T`; the string is the error message.
  The zero values Go returns next to a non-nil error are dropped.
-/

namespace Matebook

/-- A Go string: a sequence of bytes. -/
abbrev GoString := List Nat

/-- The bytes of an ASCII literal. -/
def lit (s : String) : GoString := s.toList.map Char.toNat

/-! ## package `strings` -/

/-- Loop of `strings.Index`: the first offset (counted from `k`) at which `substr` starts. -/
def indexFrom (substr : GoString) : GoString → Nat → Int
  | [], k => if substr = [] then (k : Int) else -1
  | c :: cs, k => if substr.isPrefixOf (c :: cs) then (k : Int) else indexFrom substr cs (k + 1)

/-- Go `strings.Index(s, substr)`: index of the first instance of `substr` in `s`, or `-1`. -/
def stringsIndex (s substr : GoString) : Int := indexFrom substr s 0

/-- Loop of Go `genSplit(s, sep, 0, -1)`: cut `s` at the first instance of `sep`, keep the
part before it, continue with the part after it. The first argument bounds the number of cuts. -/
def genSplit (sep : GoString) : Nat → GoString → List GoString
  | 0, s => [s]
  | n + 1, s =>
    let m := stringsIndex s sep
    if m < 0 then [s]
    else s.take m.toNat :: genSplit sep n (s.drop (m.toNat + sep.length))

/-- Go `strings.Split(s, sep)` for a non-empty `sep` (the program only splits on the two
markers and on `","`). Go bounds the loop by `Count(s, sep)`; every cut removes at least one
byte, so `len(s)` cuts are never exceeded and the bound `len(s)` gives the same slice. -/
def stringsSplit (s sep : GoString) : List GoString := genSplit sep s.length s

/-! ## package `strconv` -/

/-- The two error kinds of `strconv`: `ErrSyntax` and `ErrRange`. -/
inductive NumError where
  | errSyntax
  | errRange
  deriving DecidableEq, Repr

/-- Go `lower(c) = c | ('x' - 'X')`. -/
def lower (c : Nat) : Nat := c ||| 32

/-- Digit value of a byte in `ParseUint`: `'0'..'9'` give 0..9, letters give 10..35. -/
def digitVal (c : Nat) : Option Nat :=
  if 48 ≤ c ∧ c ≤ 57 then some (c - 48)
  else if 97 ≤ lower c ∧ lower c ≤ 122 then some (lower c - 97 + 10)
  else none

/-- Digit loop of `strconv.ParseUint` for an explicit base (no underscores, no base prefix).
`n` is the `uint64` accumulator. -/
def parseUintLoop (base maxVal cutoff : Nat) : GoString → Nat → Except NumError Nat
  | [], n => .ok n
  | c :: cs, n =>
    match digitVal c with
    | none => .error .errSyntax
    | some d =>
      if d ≥ base then .error .errSyntax
      else if n ≥ cutoff then .error .errRange
      else
        let n0 := (n * base) % 2 ^ 64
        let n1 := (n0 + d) % 2 ^ 64
        if n1 < n0 ∨ n1 > maxVal then .error .errRange
        else parseUintLoop base maxVal cutoff cs n1

/-- Go `strconv.ParseUint(s, base, bitSize)` for `2 ≤ base ≤ 36` and `1 ≤ bitSize ≤ 64`
(the program uses base 16 and bit size 32). -/
def ParseUint (s : GoString) (base bitSize : Nat) : Except NumError Nat :=
  if s = [] then .error .errSyntax
  else
    let cutoff := (2 ^ 64 - 1) / base + 1
    let maxVal := 2 ^ bitSize - 1
    parseUintLoop base maxVal cutoff s 0

/-- Go `strconv.ParseInt(s, base, bitSize)` for `2 ≤ base ≤ 36` and `1 ≤ bitSize ≤ 64`.
A range error of `ParseUint` leaves `un = maxVal`, which the cutoff test below turns into
the range error of `ParseInt`. -/
def ParseInt (s : GoString) (base bitSize : Nat) : Except NumError Int :=
  match s with
  | [] => .error .errSyntax
  | c0 :: rest =>
    let neg := c0 = 45
    let s1 := if c0 = 43 ∨ c0 = 45 then rest else s
    match ParseUint s1 base bitSize with
    | .error .errSyntax => .error .errSyntax
    | .error .errRange => .error .errRange
    | .ok un =>
      let cutoff := 2 ^ (bitSize - 1)
      if ¬ neg ∧ un ≥ cutoff then .error .errRange
      else if neg ∧ un > cutoff then .error .errRange
      else if neg then .ok (-(un : Int)) else .ok (un : Int)

/-- The digit table `"0123456789abcdefghijklmnopqrstuvwxyz"` of `strconv` and `fmt`. -/
def digitByte (d : Nat) : Nat := if d < 10 then 48 + d else 87 + d

/-- Digit loop of `formatBits` / `fmtInteger`: writes the digits of `u` in front of `acc`,
least significant first. The first argument bounds the number of digits (a `uint64` has at
most 64). -/
def formatBits (base : Nat) : Nat → Nat → GoString → GoString
  | 0, u, acc => digitByte u :: acc
  | fuel + 1, u, acc =>
    if u ≥ base then formatBits base fuel (u / base) (digitByte (u % base) :: acc)
    else digitByte u :: acc

/-- Go `strconv.FormatInt(i, base)`. -/
def FormatInt (i : Int) (base : Nat) : GoString :=
  if i < 0 then 45 :: formatBits base 64 i.natAbs [] else formatBits base 64 i.natAbs []

/-! ## package `fmt` -/

/-- Go `fmt.Sprintf("%02x", v)` for an `int`: hexadecimal digits of `|v|`, padded with zeros
to the width 2 (one place is left for the sign of a negative number), then the sign. -/
def sprintf02x (v : Int) : GoString :=
  let negative := v < 0
  let prec := if negative then 1 else 2
  let ds := formatBits 16 64 v.natAbs []
  let padded := List.replicate (prec - ds.length) 48 ++ ds
  if negative then 45 :: padded else padded

/-! ## `driver-darwin.go` -/

/-- Source `threshToHexArg`. -/
def threshToHexArg (min max : Int) : GoString :=
  let argHex := sprintf02x max ++ sprintf02x min ++ lit "0000"
  match ParseInt argHex 16 32 with
  | .error _ => lit "0"
  | .ok arg => FormatInt arg 10

/-- The error of `getHexValues`. -/
def failHex : String := "failed to parse hex value(s)"

/-- The error of `getThreshFromLog` and `getFnlockFromLog`. -/
def failLog : String := "failed to parse log fragment"

/-- The `for _, s := range l` loop of `getHexValues`; `val` is the slice built so far. -/
def getHexValuesLoop : List GoString → List Int → Except String (List Int)
  | [], val => .ok val
  | s :: rest, val =>
    let i := stringsIndex s (lit "x")
    if i = -1 then getHexValuesLoop rest val
    else if (s.length : Int) < i + 2 then .error failHex
    else
      let h := s.drop (i + 1).toNat
      match ParseInt h 16 32 with
      | .error _ => .error failHex
      | .ok v => getHexValuesLoop rest (val ++ [v])

/-- Source `getHexValues`. -/
def getHexValues (l : List GoString) (num : Int) : Except String (List Int) :=
  match getHexValuesLoop l [] with
  | .error e => .error e
  | .ok val => if (val.length : Int) ≠ num then .error failHex else .ok val

/-- The pair `(min, max)` returned by `getThreshFromLog`. -/
structure Thresh where
  min : Int
  max : Int
  deriving DecidableEq, Repr

/-- Source `getThreshFromLog`. The indexings `l[1]`, `val[0]`, `val[1]` are in range on the
paths that reach them (`len(l) ≥ 2`, `len(val) = 2`). -/
def getThreshFromLog (log : GoString) : Except String Thresh :=
  let l := stringsSplit log (lit "Reading (hexadecimal values):")
  if l.length < 2 then .error failLog
  else
    let l := stringsSplit (l.getD 1 []) (lit ",")
    match getHexValues l 2 with
    | .error e => .error e
    | .ok val => .ok { min := val.getD 0 0, max := val.getD 1 0 }

/-- Source `getFnlockFromLog`. -/
def getFnlockFromLog (log : GoString) : Except String Bool :=
  let l := stringsSplit log (lit "Reading Fn-Lock state")
  if l.length < 2 then .error failLog
  else
    let l := stringsSplit (l.getD 1 []) (lit ",")
    match getHexValues l 1 with
    | .error e => .error e
    | .ok val => .ok (val.getD 0 0 != 0)

/-! ## Specification-side notions -/

/-- The decimal string of a natural number: its standard decimal numeral, as bytes. -/
def decimalString (n : Nat) : GoString := lit (Nat.repr n)

/-- Reading a decimal string back as an integer (`strconv.ParseInt(s, 10, 64)`). -/
def readDecimal (s : GoString) : Except NumError Int := ParseInt s 10 64

/-- The text after the first `'x'` of a fragment, if the fragment has an `'x'`. -/
def afterX : GoString → Option GoString
  | [] => none
  | c :: cs => if c = 120 then some cs else afterX cs

/-- Value of a hexadecimal digit character, either case. -/
def hexVal (c : Nat) : Option Nat :=
  if 48 ≤ c ∧ c ≤ 57 then some (c - 48)
  else if 97 ≤ c ∧ c ≤ 102 then some (c - 87)
  else if 65 ≤ c ∧ c ≤ 70 then some (c - 55)
  else none

/-- A byte is a hexadecimal digit character. -/
def isHexDigit (c : Nat) : Prop := (48 ≤ c ∧ c ≤ 57) ∨ (97 ≤ c ∧ c ≤ 102) ∨ (65 ≤ c ∧ c ≤ 70)

instance : DecidablePred isHexDigit := fun c => by unfold isHexDigit; infer_instance

/-- A text without one leading sign character (`'+'` or `'-'`). -/
def dropSign : GoString → GoString
  | [] => []
  | c :: cs => if c = 43 ∨ c = 45 then cs else c :: cs

/-- The value-bearing tokens of a fragment list: the fragments that contain an `'x'`. -/
def valueTokens (l : List GoString) : List GoString := l.filter (fun s => decide (120 ∈ s))

/-- The value of a token: the text after its first `'x'` read as a base-16 numeral within
the signed 32-bit range; `none` when the token has no `'x'` or the text is no such numeral. -/
def tokenValue (s : GoString) : Option Int :=
  match afterX s with
  | none => none
  | some h =>
    match ParseInt h 16 32 with
    | .ok v => some v
    | .error _ => none

/-- The comma-separated fragments that `getThreshFromLog` and `getFnlockFromLog` hand to
`getHexValues`: `strings.Split(strings.Split(log, marker)[1], ",")`. -/
def fragmentsAfter (marker log : GoString) : List GoString :=
  stringsSplit ((stringsSplit log marker).getD 1 []) (lit ",")

/-! ## Endpoints and the outside world

The getters, setters and subprocesses act on the world outside the program. The world is an
arbitrary state `σ`; every call is a function on it, so the result of a call may depend on
everything that happened before. Each function of the source records the calls it makes, in
order, as a list of events. -/

/-- A Go `error`: `none` is `nil`, `some msg` an error. -/
abbrev GoError := Option String

/-- The calls the source makes to the outside world. The logging events carry the message
identifier or the text, without formatted operands. -/
inductive Event where
  /-- Call of `fnlockGetter.get()`. -/
  | get
  /-- Call of `fnlockSetter.set(state)`. -/
  | set (state : Bool)
  /-- Call of `time.Sleep(ms * time.Millisecond)`. -/
  | sleep (ms : Nat)
  /-- Call of `logError.Println` with a localized message. -/
  | logError (id : String)
  /-- Call of `logTrace.Println` or `logTrace.Printf`. -/
  | logTrace (text : String)
  /-- Call of `cmdLog.Start()`. -/
  | startLog
  /-- Call of `cmdIoio.Run()`. -/
  | runIoio
  /-- Call of `out.String()`. -/
  | readOut
  /-- Call of `cmdLog.Process.Signal(os.Kill)`. -/
  | signalKill
  deriving DecidableEq, Repr

/-- Source `splitFnlockEndpoint`: a `fnlockGetter` and a `fnlockSetter`. `get` returns the Go
pair `(bool, error)`. -/
structure splitFnlockEndpoint (σ : Type) where
  getter : σ → (Bool × GoError) × σ
  setter : Bool → σ → GoError × σ

/-- Source `splitFnlockEndpoint.get`. -/
def splitFnlockEndpoint.get {σ : Type} (sfe : splitFnlockEndpoint σ) (st : σ) :
    (Bool × GoError) × σ :=
  sfe.getter st

/-- The confirmation loop `for i := 1; i < 5; i++` of `toggle`, by the number `n = 5 - i` of
rounds left. `sleep` is what `time.Sleep` does to the world. -/
def pollLoop {σ : Type} (sfe : splitFnlockEndpoint σ) (sleep : Nat → σ → σ) (state : Bool) :
    Nat → σ → List Event → σ × List Event
  | 0, st, tr => (st, tr)
  | n + 1, st, tr =>
    let st1 := sleep 900 st
    let r := sfe.get st1
    let tr1 := tr ++ [.sleep 900, .logTrace "checking state, attempt", .get]
    if r.1.1 != state && r.1.2 = none then
      (r.2, tr1 ++ [.logTrace "state set as expected"])
    else
      pollLoop sfe sleep state n r.2 (tr1 ++ [.logTrace "not set yet"])

/-- Source `splitFnlockEndpoint.toggle`; `wait` is `config.wait`. Returns the world after the
call and the events of the call. -/
def splitFnlockEndpoint.toggle {σ : Type} (sfe : splitFnlockEndpoint σ)
    (sleep : Nat → σ → σ) (wait : Bool) (st : σ) : σ × List Event :=
  let r := sfe.get st
  match r.1.2 with
  | some _ => (r.2, [.get, .logError "CantReadFnlock"])
  | none =>
    let state := r.1.1
    let w := sfe.setter (!state) r.2
    let tr :=
      match w.1 with
      | some _ => [Event.get, .set (!state), .logError "CantToggleFnlock"]
      | none => [Event.get, .set (!state)]
    if wait then
      let p := pollLoop sfe sleep state 4 w.2
        (tr ++ [.logTrace "FnLock state pushed, will wait for it to be set"])
      (p.1, p.2 ++ [.logTrace "alright, going on"])
    else (w.2, tr)

/-- Source `splitFnlockEndpoint.isWritable`. Returns the answer, the world after the call and
the events of the call. -/
def splitFnlockEndpoint.isWritable {σ : Type} (sfe : splitFnlockEndpoint σ) (st : σ) :
    Bool × σ × List Event :=
  let r := sfe.get st
  match r.1.2 with
  | some _ => (false, r.2, [.get])
  | none =>
    let w := sfe.setter r.1.1 r.2
    match w.1 with
    | some _ => (false, w.2, [.get, .set r.1.1])
    | none => (true, w.2, [.get, .set r.1.1])

/-- Source `splitThreshEndpoint`: a `threshGetter` and a `threshSetter`. `get` returns the Go
triple `(min, max, err)`. -/
structure splitThreshEndpoint (σ : Type) where
  getter : σ → (Int × Int × GoError) × σ
  setter : Int → Int → σ → GoError × σ

/-- Source `splitThreshEndpoint.write`. -/
def splitThreshEndpoint.write {σ : Type} (ste : splitThreshEndpoint σ) (min max : Int)
    (st : σ) : GoError × σ :=
  ste.setter min max st

/-- Source `splitThreshEndpoint.get`. -/
def splitThreshEndpoint.get {σ : Type} (ste : splitThreshEndpoint σ) (st : σ) :
    (Int × Int × GoError) × σ :=
  ste.getter st

/-- Source `zeroGetter.get`. -/
def zeroGetter {σ : Type} (st : σ) : (Int × Int × GoError) × σ := ((0, 100, none), st)

/-- Source `errSetter.set`. -/
def errSetter {σ : Type} (_min _max : Int) (st : σ) : GoError × σ :=
  (some "not implemented", st)

/-- The second endpoint that `initEndpoints` appends to `threshEndpoints`:
`splitThreshEndpoint{zeroGetter{}, errSetter{}}`. -/
def fallbackThreshEndpoint (σ : Type) : splitThreshEndpoint σ :=
  { getter := zeroGetter, setter := errSetter }

/-- The two subprocesses of `readFromLog` and what it does to them. -/
structure LogCapture (σ : Type) where
  /-- Source `cmdLog.Start()`. -/
  startLog : σ → GoError × σ
  /-- Source `cmdIoio.Run()`. -/
  runIoio : σ → GoError × σ
  /-- Source `time.Sleep`. -/
  sleep : Nat → σ → σ
  /-- Source `out.String()`: what the log capture has written so far. -/
  output : σ → GoString
  /-- Source `cmdLog.Process.Signal(os.Kill)`; its error is dropped by the source. -/
  signalKill : σ → σ

/-- What `readFromLog` returns: `(result, err)`, the world after the call, the events. -/
structure ReadResult (σ : Type) where
  result : GoString
  err : GoError
  world : σ
  trace : List Event

/-- Source `readFromLog`. The two `defer` statements are registered once `cmdLog.Start()` has
succeeded, and run when the function returns, the last registered first. -/
def readFromLog {σ : Type} (w : LogCapture σ) (st : σ) : ReadResult σ :=
  let s := w.startLog st
  match s.1 with
  | some e => { result := [], err := some e, world := s.2,
                trace := [.startLog, .logError "CantRunLog"] }
  | none =>
    let st1 := w.sleep 200 s.2
    let r := w.runIoio st1
    let body : ReadResult σ :=
      match r.1 with
      | some e => { result := [], err := some e, world := r.2,
                    trace := [.startLog, .sleep 200, .runIoio, .logError "CantRunIoio"] }
      | none =>
        let st2 := w.sleep 500 r.2
        { result := w.output st2, err := none, world := st2,
          trace := [.startLog, .sleep 200, .runIoio, .sleep 500, .readOut,
            .logTrace "Read from the log: %s"] }
    { result := body.result, err := body.err, world := w.signalKill body.world,
      trace := body.trace ++ [.logTrace "Killing the log output process...", .signalKill] }

/-- An fn-lock endpoint for evaluation: the getter always reads `false` without error, the
setter always fails. The world is trivial. -/
def failingSetterEndpoint : splitFnlockEndpoint Unit :=
  { getter := fun st => ((false, none), st),
    setter := fun _ st => (some "exit status 1", st) }

/-- An fn-lock endpoint for evaluation: the getter always fails. -/
def failingGetterEndpoint : splitFnlockEndpoint Unit :=
  { getter := fun st => ((false, some "exit status 1"), st),
    setter := fun _ st => (none, st) }

/-- An fn-lock endpoint for evaluation over a counter of `get` calls: the state reads `true`
from the third `get` on; the setter succeeds. -/
def slowEndpoint : splitFnlockEndpoint Nat :=
  { getter := fun n => ((decide (2 ≤ n), none), n + 1),
    setter := fun _ n => (none, n) }

/-- A log capture for evaluation: the capture starts, the triggering subprocess fails. -/
def failingTrigger : LogCapture Unit :=
  { startLog := fun st => (none, st),
    runIoio := fun st => (some "exit status 1", st),
    sleep := fun _ st => st,
    output := fun _ => [],
    signalKill := fun st => st }

/-! ## Specification-side notions for the endpoints -/

/-- The calls to getter, setter and clock among the events, in order (logging left out). -/
def calls (tr : List Event) : List Event :=
  tr.filter (fun e => match e with
    | .get => true
    | .set _ => true
    | .sleep _ => true
    | _ => false)

/-- The world after `i` confirmation rounds that follow the world `st`: each round is one
900 ms delay and one `get`. -/
def afterRounds {σ : Type} (sfe : splitFnlockEndpoint σ) (sleep : Nat → σ → σ) :
    Nat → σ → σ
  | 0, st => st
  | i + 1, st => (sfe.get (sleep 900 (afterRounds sfe sleep i st))).2

/-- What the `i`-th confirmation `get` (counted from 1) returns. -/
def confirmGet {σ : Type} (sfe : splitFnlockEndpoint σ) (sleep : Nat → σ → σ) (i : Nat)
    (st : σ) : Bool × GoError :=
  (sfe.get (sleep 900 (afterRounds sfe sleep (i - 1) st))).1

/-- The number of confirmation rounds: the index of the first confirmation `get` among the
first four that returns no error and a state different from `state`, and 4 if there is none. -/
def confirmRounds {σ : Type} (sfe : splitFnlockEndpoint σ) (sleep : Nat → σ → σ)
    (state : Bool) (st : σ) : Nat :=
  ([1, 2, 3, 4].find? (fun i =>
    (confirmGet sfe sleep i st).1 != state && (confirmGet sfe sleep i st).2 = none)).getD 4

/-! ## Specification-side notions for numerals and occurrences -/

/-- The number written by a text of hexadecimal digits, most significant first, continued from
`acc`; `none` if a byte of the text is no hexadecimal digit. -/
def hexDigitsValue : GoString → Nat → Option Nat
  | [], acc => some acc
  | c :: cs, acc =>
    match hexVal c with
    | none => none
    | some d => hexDigitsValue cs (16 * acc + d)

/-- The value of a valid base-16 numeral within the signed 32-bit range: an optional sign
(`'+'` or `'-'`), then one or more hexadecimal digits writing a number `n`, with `n < 2^31`,
or `n ≤ 2^31` after `'-'`. `none` for any other text. -/
def hexNumeral (t : GoString) : Option Int :=
  match t with
  | [] => none
  | c :: _ =>
    if dropSign t = [] then none
    else
      match hexDigitsValue (dropSign t) 0 with
      | none => none
      | some n =>
        if c = 45 then (if n ≤ 2 ^ 31 then some (-(n : Int)) else none)
        else (if n < 2 ^ 31 then some (n : Int) else none)

/-- The numeral after the first `'x'` of a fragment. -/
def numeralAfterX (s : GoString) : Option Int := (afterX s).bind hexNumeral

/-- The text `s` is `pre ++ sep ++ post`, and no occurrence of `sep` in `s` starts before this
one: `pre` is what precedes the first occurrence of `sep`, `post` what follows it. -/
def FirstOccurrence (sep s pre post : GoString) : Prop :=
  s = pre ++ sep ++ post ∧ ∀ p q : GoString, s = p ++ sep ++ q → pre.length ≤ p.length

/-- Splitting a text on commas and extracting 2 values from it, as thresholds. -/
def extractThresh (t : GoString) : Except String Thresh :=
  match getHexValues (stringsSplit t (lit ",")) 2 with
  | .error e => .error e
  | .ok val => .ok { min := val.getD 0 0, max := val.getD 1 0 }

/-- Splitting a text on commas and extracting 1 value from it, as fn-lock state. -/
def extractFnlock (t : GoString) : Except String Bool :=
  match getHexValues (stringsSplit t (lit ",")) 1 with
  | .error e => .error e
  | .ok val => .ok (val.getD 0 0 != 0)

/-! ## Digits: writing and reading numerals -/

theorem digitByte_digitChar (d : Nat) (h : d < 10) : (Nat.digitChar d).toNat = digitByte d := by
  interval_cases d <;> rfl

theorem digitVal_digitByte (d : Nat) (h : d < 36) : digitVal (digitByte d) = some d := by
  interval_cases d <;> rfl

theorem digitByte_ne_sign (d : Nat) (h : d < 36) : digitByte d ≠ 43 ∧ digitByte d ≠ 45 := by
  unfold digitByte; split <;> omega

/-- The decimal digits written by `formatBits` are those of the standard numeral. -/
theorem formatBits_toDigitsCore (f : Nat) : ∀ (f2 u : Nat) (ds : List Char),
    u < 2 ^ f → u < f2 →
    formatBits 10 f u (ds.map Char.toNat) = (Nat.toDigitsCore 10 f2 u ds).map Char.toNat := by
  induction f with
  | zero =>
    intro f2 u ds hu hf2
    have : u = 0 := by simpa using hu
    subst this
    cases f2 with
    | zero => omega
    | succ f2 => simp [formatBits, Nat.toDigitsCore, digitByte_digitChar]
  | succ f ih =>
    intro f2 u ds hu hf2
    cases f2 with
    | zero => omega
    | succ f2 =>
      rw [formatBits, Nat.toDigitsCore]
      by_cases h : u ≥ 10
      · have h1 : u / 10 ≠ 0 := by omega
        have h2 : u / 10 < 2 ^ f := by rw [pow_succ] at hu; omega
        have h3 : u / 10 < f2 := by omega
        have := ih f2 (u / 10) (Nat.digitChar (u % 10) :: ds) h2 h3
        simp only [List.map_cons] at this
        rw [digitByte_digitChar _ (by omega)] at this
        simp [h, h1, this]
      · have h1 : u / 10 = 0 := by omega
        have h4 : u % 10 = u := by omega
        simp [h, h1, h4, digitByte_digitChar u (by omega)]

theorem FormatInt_decimal (n : Nat) (h : n < 2 ^ 64) :
    FormatInt (n : Int) 10 = decimalString n := by
  have := formatBits_toDigitsCore 64 (n + 1) n [] h (by omega)
  simp only [List.map_nil] at this
  simp [FormatInt, decimalString, lit, Nat.repr, Nat.toDigits, this, List.asString]

/-- The first byte written by `formatBits` is a digit, and not `'0'` for a positive number. -/
theorem formatBits_head (f : Nat) : ∀ (u : Nat) (acc : GoString), u < 2 ^ f →
    ∃ d rest, d < 10 ∧ (0 < u → 0 < d) ∧ formatBits 10 f u acc = digitByte d :: rest := by
  induction f with
  | zero =>
    intro u acc hu
    exact ⟨u, acc, by simp at hu; omega, fun h => h, rfl⟩
  | succ f ih =>
    intro u acc hu
    rw [formatBits]
    by_cases h : u ≥ 10
    · obtain ⟨d, rest, hd, hpos, e⟩ := ih (u / 10) (digitByte (u % 10) :: acc)
        (by rw [pow_succ] at hu; omega)
      exact ⟨d, rest, hd, fun _ => hpos (by omega), by simp [h, e]⟩
    · exact ⟨u, acc, by omega, fun h => h, by simp [h]⟩

theorem formatBits_digits (f : Nat) : ∀ (u : Nat) (acc : GoString), u < 2 ^ f →
    (∀ c ∈ acc, 48 ≤ c ∧ c ≤ 57) → ∀ c ∈ formatBits 10 f u acc, 48 ≤ c ∧ c ≤ 57 := by
  induction f with
  | zero =>
    intro u acc hu hacc c hc
    have : u = 0 := by simpa using hu
    subst this
    simp only [formatBits, List.mem_cons] at hc
    rcases hc with rfl | hc
    · decide
    · exact hacc c hc
  | succ f ih =>
    intro u acc hu hacc c hc
    rw [formatBits] at hc
    by_cases h : u ≥ 10
    · simp only [h, if_true] at hc
      refine ih (u / 10) _ (by rw [pow_succ] at hu; omega) ?_ c hc
      intro c' hc'
      simp only [List.mem_cons] at hc'
      rcases hc' with rfl | hc'
      · unfold digitByte; split <;> omega
      · exact hacc c' hc'
    · simp only [h, if_false, List.mem_cons] at hc
      rcases hc with rfl | hc
      · unfold digitByte; split <;> omega
      · exact hacc c hc

/-- One round of the `ParseUint` loop on a digit that fits. -/
theorem parseUintLoop_step (base maxVal cutoff c d n : Nat) (cs : GoString)
    (hc : digitVal c = some d) (hd : d < base) (hn : n < cutoff)
    (hv : n * base + d ≤ maxVal) (hm : maxVal < 2 ^ 64) :
    parseUintLoop base maxVal cutoff (c :: cs) n
      = parseUintLoop base maxVal cutoff cs (n * base + d) := by
  have h1 : n * base < 2 ^ 64 := by omega
  have h2 : n * base + d < 2 ^ 64 := by omega
  rw [parseUintLoop, hc]
  simp only [Nat.mod_eq_of_lt h1, Nat.mod_eq_of_lt h2]
  rw [if_neg (by omega), if_neg (by omega), if_neg (by omega)]

theorem parseUintLoop_digit (base maxVal cutoff d n : Nat) (cs : GoString)
    (hd : d < base) (hb : base ≤ 36) (hn : n < cutoff) (hv : n * base + d ≤ maxVal)
    (hm : maxVal < 2 ^ 64) :
    parseUintLoop base maxVal cutoff (digitByte d :: cs) n
      = parseUintLoop base maxVal cutoff cs (n * base + d) :=
  parseUintLoop_step base maxVal cutoff _ d n cs (digitVal_digitByte d (by omega)) hd hn hv hm

/-- Parsing the decimal digits written by `formatBits` brings the accumulator from 0 to `u`. -/
theorem parseUintLoop_formatBits (f : Nat) : ∀ (u : Nat) (acc : GoString), u < 2 ^ f →
    u < 2 ^ 64 →
    parseUintLoop 10 (2 ^ 64 - 1) ((2 ^ 64 - 1) / 10 + 1) (formatBits 10 f u acc) 0
      = parseUintLoop 10 (2 ^ 64 - 1) ((2 ^ 64 - 1) / 10 + 1) acc u := by
  induction f with
  | zero =>
    intro u acc hu _
    have : u = 0 := by simpa using hu
    subst this
    rw [formatBits, parseUintLoop_digit _ _ _ _ _ _ (by omega) (by omega) (by norm_num)
      (by norm_num) (by norm_num)]
  | succ f ih =>
    intro u acc hu hu64
    rw [formatBits]
    by_cases h : u ≥ 10
    · simp only [h, if_true]
      rw [ih (u / 10) _ (by rw [pow_succ] at hu; omega) (by omega)]
      rw [parseUintLoop_digit _ _ _ _ _ _ (by omega) (by omega) (by norm_num at hu64 ⊢; omega)
        (by norm_num at hu64 ⊢; omega) (by norm_num)]
      congr 1
      omega
    · simp only [h, if_false]
      rw [parseUintLoop_digit _ _ _ _ _ _ (by omega) (by omega) (by norm_num)
        (by norm_num at hu64 ⊢; omega) (by norm_num)]
      congr 1
      omega

/-- Reading back what `FormatInt` wrote. -/
theorem ParseInt_FormatInt (n : Nat) (h : n < 2 ^ 63) :
    ParseInt (FormatInt (n : Int) 10) 10 64 = .ok (n : Int) := by
  have hneg : ¬ ((n : Int) < 0) := by omega
  obtain ⟨d, rest, hd, _, e⟩ := formatBits_head 64 n [] (by omega)
  have hs := digitByte_ne_sign d (by omega)
  have hp := parseUintLoop_formatBits 64 n [] (by omega) (by omega)
  rw [e, parseUintLoop] at hp
  simp only [FormatInt, hneg, if_false, Int.natAbs_ofNat, e, ParseInt, hs.1, hs.2, or_self,
    ParseUint, reduceCtorEq, hp]
  norm_num at h
  simp
  omega

/-! ## The threshold argument encoder -/

theorem sprintf02x_byte (v : Int) (h0 : 0 ≤ v) (h1 : v ≤ 255) :
    sprintf02x v = [digitByte (v.toNat / 16), digitByte (v.toNat % 16)] := by
  obtain ⟨n, rfl⟩ := Int.eq_ofNat_of_zero_le h0
  have hn : n ≤ 255 := by omega
  have hneg : ¬ ((n : Int) < 0) := by omega
  simp only [sprintf02x, hneg, Int.natAbs_ofNat, Int.toNat_ofNat]
  by_cases h : n ≥ 16
  · have h2 : ¬ (n / 16 ≥ 16) := by omega
    simp [formatBits, h, h2]
  · have h2 : n / 16 = 0 := by omega
    have h3 : n % 16 = n := by omega
    simp [formatBits, h, h2, h3, digitByte]

/-- The unsigned parse of the hex string `MAXMIN0000`. -/
theorem ParseUint_argHex (a b : Nat) (ha : a ≤ 255) (hb : b ≤ 255) :
    ParseUint ([digitByte (a / 16), digitByte (a % 16), digitByte (b / 16), digitByte (b % 16)]
        ++ lit "0000") 16 32 = .ok (a * 2 ^ 24 + b * 2 ^ 16) := by
  have hl : lit "0000" = [digitByte 0, digitByte 0, digitByte 0, digitByte 0] := by decide
  rw [hl]
  simp only [ParseUint, List.cons_append, List.nil_append, reduceCtorEq, if_false]
  rw [parseUintLoop_digit _ _ _ _ _ _ (by omega) (by omega) (by omega) (by omega) (by norm_num)]
  rw [parseUintLoop_digit _ _ _ _ _ _ (by omega) (by omega) (by omega) (by omega) (by norm_num)]
  rw [parseUintLoop_digit _ _ _ _ _ _ (by omega) (by omega) (by omega) (by omega) (by norm_num)]
  rw [parseUintLoop_digit _ _ _ _ _ _ (by omega) (by omega) (by omega) (by omega) (by norm_num)]
  rw [parseUintLoop_digit _ _ _ _ _ _ (by omega) (by omega) (by omega) (by omega) (by norm_num)]
  rw [parseUintLoop_digit _ _ _ _ _ _ (by omega) (by omega) (by omega) (by omega) (by norm_num)]
  rw [parseUintLoop_digit _ _ _ _ _ _ (by omega) (by omega) (by omega) (by omega) (by norm_num)]
  rw [parseUintLoop_digit _ _ _ _ _ _ (by omega) (by omega) (by omega) (by omega) (by norm_num)]
  rw [parseUintLoop]
  congr 1
  omega

/-- The signed 32-bit parse of `MAXMIN0000` fails exactly from `max = 128` on. -/
theorem ParseInt_argHex (a b : Nat) (ha : a ≤ 255) (hb : b ≤ 255) :
    ParseInt ([digitByte (a / 16), digitByte (a % 16), digitByte (b / 16), digitByte (b % 16)]
        ++ lit "0000") 16 32
      = if a ≥ 128 then .error .errRange else .ok ((a * 2 ^ 24 + b * 2 ^ 16 : Nat) : Int) := by
  have hs := digitByte_ne_sign (a / 16) (by omega)
  have hp := ParseUint_argHex a b ha hb
  simp only [List.cons_append, List.nil_append] at hp ⊢
  simp only [ParseInt, hs.1, hs.2, or_self, if_false, hp]
  by_cases h : a ≥ 128
  · simp [h]; omega
  · simp [h]; omega

/-- What `threshToHexArg` returns on bytes. -/
theorem threshToHexArg_nat (a b : Nat) (ha : a ≤ 255) (hb : b ≤ 255) :
    threshToHexArg (b : Int) (a : Int)
      = if a ≥ 128 then lit "0" else decimalString (a * 2 ^ 24 + b * 2 ^ 16) := by
  have h1 := sprintf02x_byte (a : Int) (by omega) (by omega)
  have h2 := sprintf02x_byte (b : Int) (by omega) (by omega)
  simp only [Int.toNat_ofNat] at h1 h2
  have hp := ParseInt_argHex a b ha hb
  simp only [List.cons_append, List.nil_append] at hp
  simp only [threshToHexArg, h1, h2, List.cons_append, List.nil_append, hp]
  by_cases h : a ≥ 128
  · simp [h]
  · simp only [h, if_false]
    exact FormatInt_decimal _ (by norm_num; omega)

theorem toNat_encoded (a b : Nat) :
    ((a : Int) * 2 ^ 24 + (b : Int) * 2 ^ 16).toNat = a * 2 ^ 24 + b * 2 ^ 16 := by
  have : ((a : Int) * 2 ^ 24 + (b : Int) * 2 ^ 16) = ((a * 2 ^ 24 + b * 2 ^ 16 : Nat) : Int) := by
    push_cast; ring
  rw [this, Int.toNat_ofNat]

/-! ## Hexadecimal digits -/

theorem lower_small (c : Nat) (h : lower c ≤ 122) : c < 128 := by
  have h1 : 2 ^ 7 * (c / 128) + c % 128 = c := by norm_num; omega
  have h2 := Nat.mul_add_lt_is_or (show c % 128 < 2 ^ 7 by norm_num; omega) (c / 128)
  have h3 : (c % 128 ||| 32) < 2 ^ 7 := Nat.or_lt_two_pow (by norm_num; omega) (by norm_num)
  have h4 := Nat.mul_add_lt_is_or h3 (c / 128)
  have h5 : lower c = 2 ^ 7 * (c / 128) + (c % 128 ||| 32) := by
    rw [h4, ← Nat.or_assoc, ← h2, h1, lower]
  rw [h5] at h
  norm_num at h
  omega

theorem digitVal_hex_small : ∀ c < 128, ∀ d < 16, digitVal c = some d → isHexDigit c := by
  decide

theorem digitVal_hex (c d : Nat) (h : digitVal c = some d) (hd : d < 16) : isHexDigit c := by
  by_cases hc : c < 128
  · exact digitVal_hex_small c hc d hd h
  · exfalso
    unfold digitVal at h
    split at h
    · omega
    · split at h
      · rename_i h2
        have := lower_small c h2.2
        omega
      · cases h

theorem hexVal_small : ∀ c < 103, ∀ v < 16, hexVal c = some v → digitVal c = some v := by
  decide

theorem hexVal_spec (c v : Nat) (h : hexVal c = some v) :
    digitVal c = some v ∧ v < 16 ∧ c ≠ 43 ∧ c ≠ 45 ∧ c ≠ 44 ∧ c ≠ 120 := by
  have hb : c < 103 ∧ v < 16 ∧ c ≠ 43 ∧ c ≠ 45 ∧ c ≠ 44 ∧ c ≠ 120 := by
    unfold hexVal at h
    split at h
    · simp only [Option.some.injEq] at h; omega
    · split at h
      · simp only [Option.some.injEq] at h; omega
      · split at h
        · simp only [Option.some.injEq] at h; omega
        · cases h
  exact ⟨hexVal_small c hb.1 v hb.2.1 h, hb.2⟩

/-! ## `strings.Index` and `strings.Split` -/

theorem lit_x : lit "x" = [120] := by decide

theorem lit_comma : lit "," = [44] := by decide

/-- Without an `'x'`, `strings.Index(s, "x")` is `-1`. -/
theorem indexFrom_x_none : ∀ (s : GoString) (k : Nat), afterX s = none →
    indexFrom [120] s k = -1 := by
  intro s
  induction s with
  | nil => intro k _; simp [indexFrom]
  | cons c cs ih =>
    intro k h
    by_cases hc : c = 120
    · simp [afterX, hc] at h
    · simp only [afterX, hc, if_false] at h
      have : ¬ (120 = c) := fun e => hc e.symm
      simp [indexFrom, List.isPrefixOf, this, ih (k + 1) h]

/-- With an `'x'`, `strings.Index(s, "x")` is the offset of the first one; what follows that
offset is `afterX s`. -/
theorem indexFrom_x_some : ∀ (s : GoString) (k : Nat) (h : GoString), afterX s = some h →
    ∃ j : Nat, indexFrom [120] s k = ((k + j : Nat) : Int) ∧ s.drop (j + 1) = h
      ∧ s.length = j + 1 + h.length := by
  intro s
  induction s with
  | nil => intro k h e; simp [afterX] at e
  | cons c cs ih =>
    intro k h e
    by_cases hc : c = 120
    · simp only [afterX, hc, if_true, Option.some.injEq] at e
      subst e
      exact ⟨0, by simp [indexFrom, List.isPrefixOf, hc], by simp,
        by simp only [List.length_cons]; omega⟩
    · simp only [afterX, hc, if_false] at e
      obtain ⟨j, h1, h2, h3⟩ := ih (k + 1) h e
      have : ¬ (120 = c) := fun e => hc e.symm
      refine ⟨j + 1, ?_, by simpa using h2, by simp [h3]; omega⟩
      simp only [indexFrom, List.isPrefixOf, beq_iff_eq, this, Bool.and_true, h1]
      simp
      omega

theorem afterX_eq_none_iff (s : GoString) : afterX s = none ↔ 120 ∉ s := by
  induction s with
  | nil => simp [afterX]
  | cons c cs ih =>
    by_cases hc : c = 120
    · simp [afterX, hc]
    · have : ¬ (120 = c) := fun e => hc e.symm
      simp [afterX, hc, this, ih]

theorem ParseInt_nil (base bitSize : Nat) : ParseInt [] base bitSize = .error .errSyntax := rfl

/-- One round of the loop of `getHexValues`, by the text after the first `'x'`. -/
theorem getHexValuesLoop_cons (s : GoString) (rest : List GoString) (val : List Int) :
    getHexValuesLoop (s :: rest) val =
      match afterX s with
      | none => getHexValuesLoop rest val
      | some h =>
        match ParseInt h 16 32 with
        | .error _ => .error failHex
        | .ok v => getHexValuesLoop rest (val ++ [v]) := by
  rw [getHexValuesLoop, lit_x, stringsIndex]
  cases e : afterX s with
  | none => simp [indexFrom_x_none s 0 e]
  | some h =>
    obtain ⟨j, h1, h2, h3⟩ := indexFrom_x_some s 0 h e
    have h1 : indexFrom [120] s 0 = (j : Int) := by simpa using h1
    have hne : ¬ ((j : Int) = -1) := by omega
    have hj : ((j : Int) + 1).toNat = j + 1 := by omega
    have h3 : ((s.length : Nat) : Int) = (j : Int) + 1 + (h.length : Int) := by
      exact_mod_cast h3
    simp only [h1, hne, if_false, hj, h2]
    by_cases hh : h = []
    · have hl : h.length = 0 := by simp [hh]
      have : ((s.length : Nat) : Int) < (j : Int) + 2 := by omega
      rw [if_pos this, hh, ParseInt_nil]
    · have hl : 0 < h.length := List.length_pos.mpr hh
      have : ¬ (((s.length : Nat) : Int) < (j : Int) + 2) := by omega
      rw [if_neg this]

/-- A fragment without an `'x'` is skipped. -/
theorem getHexValuesLoop_skip (s : GoString) (rest : List GoString) (val : List Int)
    (h : 120 ∉ s) : getHexValuesLoop (s :: rest) val = getHexValuesLoop rest val := by
  rw [getHexValuesLoop_cons, (afterX_eq_none_iff s).mpr h]

/-- Every error of the loop is the one error of `getHexValues`. -/
theorem getHexValuesLoop_error : ∀ (l : List GoString) (val : List Int) (e : String),
    getHexValuesLoop l val = .error e → e = failHex := by
  intro l
  induction l with
  | nil => intro val e h; simp [getHexValuesLoop] at h
  | cons s rest ih =>
    intro val e h
    rw [getHexValuesLoop_cons] at h
    cases ha : afterX s with
    | none => simp only [ha] at h; exact ih _ _ h
    | some t =>
      simp only [ha] at h
      cases hp : ParseInt t 16 32 with
      | error x => simp only [hp, Except.error.injEq] at h; exact h.symm
      | ok v => simp only [hp] at h; exact ih _ _ h

/-- The loop succeeds exactly when every value-bearing token has a value; it then appends
these values, in order, to `val`. -/
theorem getHexValuesLoop_ok : ∀ (l : List GoString) (val r : List Int),
    getHexValuesLoop l val = .ok r ↔
      ∃ vs : List Int, r = val ++ vs ∧ (valueTokens l).map tokenValue = vs.map some := by
  intro l
  induction l with
  | nil =>
    intro val r
    simp only [getHexValuesLoop, valueTokens, List.filter_nil, List.map_nil, Except.ok.injEq]
    constructor
    · intro h; exact ⟨[], by simp [h], rfl⟩
    · rintro ⟨vs, h1, h2⟩
      have : vs = [] := by simpa using h2.symm
      simp [h1, this]
  | cons s rest ih =>
    intro val r
    rw [getHexValuesLoop_cons]
    cases ha : afterX s with
    | none =>
      have hx : 120 ∉ s := (afterX_eq_none_iff s).mp ha
      simp only [ih, valueTokens, List.filter_cons, hx, decide_False]
      simp
    | some t =>
      have hx : 120 ∈ s := by
        by_contra hx
        rw [(afterX_eq_none_iff s).mpr hx] at ha
        cases ha
      have hv : valueTokens (s :: rest) = s :: valueTokens rest := by
        simp [valueTokens, List.filter_cons, hx]
      rw [hv]
      dsimp only
      cases hp : ParseInt t 16 32 with
      | error x =>
        have ht : tokenValue s = none := by simp [tokenValue, ha, hp]
        simp only [List.map_cons, ht]
        constructor
        · intro h; cases h
        · rintro ⟨vs, -, h2⟩
          cases vs <;> simp at h2
      | ok v =>
        have ht : tokenValue s = some v := by simp [tokenValue, ha, hp]
        simp only [List.map_cons, ht, ih]
        constructor
        · rintro ⟨vs, h1, h2⟩
          exact ⟨v :: vs, by simp [h1], by simp [h2]⟩
        · rintro ⟨vs, h1, h2⟩
          cases vs with
          | nil => simp at h2
          | cons w ws =>
            simp only [List.map_cons, List.cons.injEq, Option.some.injEq] at h2
            exact ⟨ws, by simp [h1, h2.1], h2.2⟩

/-- What `getHexValues` returns when it succeeds. -/
theorem getHexValues_ok (l : List GoString) (num : Int) (r : List Int) :
    getHexValues l num = .ok r ↔
      (r.length : Int) = num ∧ (valueTokens l).map tokenValue = r.map some := by
  unfold getHexValues
  cases h : getHexValuesLoop l [] with
  | error e =>
    simp only [reduceCtorEq, false_iff, not_and]
    intro _ h2
    have := (getHexValuesLoop_ok l [] r).mpr ⟨r, by simp, h2⟩
    rw [h] at this
    cases this
  | ok val =>
    obtain ⟨vs, h1, h2⟩ := (getHexValuesLoop_ok l [] val).mp h
    simp only [List.nil_append] at h1
    subst h1
    by_cases hn : (val.length : Int) = num
    · simp only [ne_eq, hn, not_true_eq_false, if_false, Except.ok.injEq]
      constructor
      · intro e; subst e; exact ⟨hn, h2⟩
      · rintro ⟨_, h3⟩
        rw [h2] at h3
        exact List.map_injective_iff.mpr (Option.some_injective _) h3
    · simp only [ne_eq, hn, not_false_eq_true, if_true, reduceCtorEq, false_iff, not_and]
      intro h3 h4
      rw [h2] at h4
      have := List.map_injective_iff.mpr (Option.some_injective _) h4
      subst this
      exact hn h3

/-- Every error of `getHexValues` is its one error. -/
theorem getHexValues_error (l : List GoString) (num : Int) (e : String)
    (h : getHexValues l num = .error e) : e = failHex := by
  unfold getHexValues at h
  cases hl : getHexValuesLoop l [] with
  | error x =>
    rw [hl] at h
    simp only [Except.error.injEq] at h
    subst h
    exact getHexValuesLoop_error l [] _ hl
  | ok val =>
    rw [hl] at h
    by_cases hn : (val.length : Int) = num
    · simp [hn] at h
    · simp [hn] at h
      exact h.symm

/-! ## Tokens without a value -/

/-- The `ParseUint` loop fails on a text with a byte that is no hexadecimal digit. -/
theorem parseUintLoop_nonhex (maxVal cutoff : Nat) : ∀ (s : GoString) (n : Nat),
    (∃ c ∈ s, ¬ isHexDigit c) → ∃ e, parseUintLoop 16 maxVal cutoff s n = .error e := by
  intro s
  induction s with
  | nil => intro n h; simp at h
  | cons c cs ih =>
    intro n h
    rw [parseUintLoop]
    cases hd : digitVal c with
    | none => exact ⟨_, rfl⟩
    | some d =>
      dsimp only
      by_cases h16 : d ≥ 16
      · rw [if_pos h16]; exact ⟨_, rfl⟩
      · rw [if_neg h16]
        split
        · exact ⟨_, rfl⟩
        · split
          · exact ⟨_, rfl⟩
          · apply ih
            obtain ⟨c', hc', hn⟩ := h
            rcases List.mem_cons.mp hc' with rfl | hc'
            · exact absurd (digitVal_hex _ d hd (by omega)) hn
            · exact ⟨c', hc', hn⟩

/-- `ParseInt(h, 16, 32)` fails on a text that, one leading sign apart, has a byte that is no
hexadecimal digit. -/
theorem ParseInt_nonhex (t : GoString) (h : ∃ c ∈ dropSign t, ¬ isHexDigit c) :
    ∃ e, ParseInt t 16 32 = .error e := by
  cases t with
  | nil => exact ⟨_, rfl⟩
  | cons c0 rest =>
    have hs : (if c0 = 43 ∨ c0 = 45 then rest else c0 :: rest) = dropSign (c0 :: rest) := rfl
    have hne : dropSign (c0 :: rest) ≠ [] := by
      obtain ⟨c, hc, _⟩ := h
      exact List.ne_nil_of_mem hc
    obtain ⟨e, he⟩ := parseUintLoop_nonhex (2 ^ 32 - 1) ((2 ^ 64 - 1) / 16 + 1) _ 0 h
    simp only [ParseInt, hs, ParseUint, hne, if_false, he]
    cases e <;> exact ⟨_, rfl⟩

/-- A token whose text after the first `'x'` is no numeral has no value. -/
theorem tokenValue_bad (s t : GoString) (h1 : afterX s = some t)
    (h2 : t = [] ∨ ∃ c ∈ dropSign t, ¬ isHexDigit c) : tokenValue s = none := by
  have : ∃ e, ParseInt t 16 32 = .error e := by
    rcases h2 with rfl | h2
    · exact ⟨_, rfl⟩
    · exact ParseInt_nonhex t h2
  obtain ⟨e, he⟩ := this
  simp [tokenValue, h1, he]

/-- A value-bearing token without a value fails `getHexValues`, whatever the other fragments. -/
theorem getHexValues_of_valueless_token (l : List GoString) (num : Int) (s : GoString) (hs : s ∈ l)
    (hx : 120 ∈ s) (hv : tokenValue s = none) : getHexValues l num = .error failHex := by
  cases h : getHexValues l num with
  | error e => rw [getHexValues_error l num e h]
  | ok r =>
    exfalso
    have h2 := ((getHexValues_ok l num r).mp h).2
    have hm : s ∈ valueTokens l := by simp [valueTokens, hs, hx]
    have : tokenValue s ∈ (valueTokens l).map tokenValue := List.mem_map_of_mem _ hm
    rw [h2, hv] at this
    simp at this

theorem mem_of_afterX (s t : GoString) (h : afterX s = some t) : 120 ∈ s := by
  by_contra hx
  rw [(afterX_eq_none_iff s).mpr hx] at h
  cases h

/-- Two hexadecimal digits parse to the byte they write. -/
theorem ParseInt_two_hex (h1 h2 v1 v2 : Nat) (e1 : hexVal h1 = some v1)
    (e2 : hexVal h2 = some v2) : ParseInt [h1, h2] 16 32 = .ok ((16 * v1 + v2 : Nat) : Int) := by
  obtain ⟨d1, b1, n1, n2, -, -⟩ := hexVal_spec h1 v1 e1
  obtain ⟨d2, b2, -⟩ := hexVal_spec h2 v2 e2
  simp only [ParseInt, n1, n2, or_self, if_false, ParseUint, reduceCtorEq]
  rw [parseUintLoop_step _ _ _ _ v1 _ _ d1 b1 (by norm_num) (by norm_num; omega) (by norm_num)]
  rw [parseUintLoop_step _ _ _ _ v2 _ _ d2 b2 (by norm_num; omega) (by norm_num; omega)
    (by norm_num)]
  rw [parseUintLoop]
  have : ¬ (0 * 16 + v1) * 16 + v2 ≥ 2 ^ (32 - 1) := by norm_num; omega
  simp only [this, and_false, if_false, false_and]
  congr 2
  omega

/-- A numeral that starts `0x` is no base-16 numeral for `ParseInt(h, 16, 32)`. -/
theorem ParseInt_0x (t : GoString) : ∃ e, ParseInt (48 :: 120 :: t) 16 32 = .error e :=
  ParseInt_nonhex _ ⟨120, by simp [dropSign], by decide⟩

/-! ## Splitting -/

/-- Where `sep` does not occur, `strings.Index` is `-1`. -/
theorem indexFrom_of_not_infix (sep : GoString) : ∀ (s : GoString) (k : Nat),
    ¬ sep <:+: s → indexFrom sep s k = -1 := by
  intro s
  induction s with
  | nil =>
    intro k h
    have : sep ≠ [] := by rintro rfl; exact h List.nil_infix
    simp [indexFrom, this]
  | cons c cs ih =>
    intro k h
    have h1 : ¬ sep.isPrefixOf (c :: cs) = true := by
      intro hp
      exact h (List.isPrefixOf_iff_prefix.mp hp).isInfix
    have h2 : ¬ sep <:+: cs := fun hi => h (List.infix_cons hi)
    rw [indexFrom, if_neg h1]
    exact ih (k + 1) h2

/-- Where `sep` does not occur, `strings.Split` returns the text alone. -/
theorem stringsSplit_of_not_infix (sep s : GoString) (h : ¬ sep <:+: s) :
    stringsSplit s sep = [s] := by
  unfold stringsSplit
  cases s.length with
  | zero => rfl
  | succ n =>
    rw [genSplit]
    simp [stringsIndex, indexFrom_of_not_infix sep s 0 h]

/-- A text that starts with `sep` and is too short to hold it twice splits in two. -/
theorem stringsSplit_starts (sep rest : GoString) (h0 : sep ≠ [])
    (hlen : rest.length < sep.length) : stringsSplit (sep ++ rest) sep = [[], rest] := by
  have hnot : ¬ sep <:+: rest := fun hi => by have := hi.length_le; omega
  have h1 : stringsIndex (sep ++ rest) sep = 0 := by
    cases sep with
    | nil => exact absurd rfl h0
    | cons c cs =>
      have : (c :: cs).isPrefixOf (c :: (cs ++ rest)) = true :=
        List.isPrefixOf_iff_prefix.mpr ⟨rest, rfl⟩
      rw [stringsIndex, List.cons_append, indexFrom, if_pos this]
      rfl
  have hpos : (sep ++ rest).length = (sep.length + rest.length - 1) + 1 := by
    have := List.length_pos.mpr h0
    simp only [List.length_append]
    omega
  have h2 : ∀ n, genSplit sep n rest = [rest] := by
    intro n
    cases n with
    | zero => rfl
    | succ n =>
      rw [genSplit]
      simp [stringsIndex, indexFrom_of_not_infix sep rest 0 hnot]
  unfold stringsSplit
  rw [hpos, genSplit]
  simp [h1, h2]

theorem indexFrom_nil_right (sep : GoString) (h0 : sep ≠ []) (k : Nat) :
    indexFrom sep [] k = -1 := by
  simp [indexFrom, h0]

/-- The bound on the number of cuts does not matter once it reaches the length of the text. -/
theorem genSplit_fuel (sep : GoString) (h0 : sep ≠ []) : ∀ (n m : Nat) (s : GoString),
    s.length ≤ n → s.length ≤ m → genSplit sep n s = genSplit sep m s := by
  have hnil : ∀ n, genSplit sep n [] = [[]] := by
    intro n
    cases n with
    | zero => rfl
    | succ n => simp [genSplit, stringsIndex, indexFrom_nil_right sep h0]
  have hsep : 0 < sep.length := List.length_pos.mpr h0
  intro n
  induction n with
  | zero =>
    intro m s hn _
    have : s = [] := List.length_eq_zero.mp (by omega)
    subst this
    rw [hnil, hnil]
  | succ n ih =>
    intro m s hn hm
    cases m with
    | zero =>
      have : s = [] := List.length_eq_zero.mp (by omega)
      subst this
      rw [hnil, hnil]
    | succ m =>
      rw [genSplit, genSplit]
      by_cases hi : stringsIndex s sep < 0
      · simp only [hi, if_true]
      · simp only [hi, if_false]
        congr 1
        apply ih
        · rw [List.length_drop]; omega
        · rw [List.length_drop]; omega

/-- `strings.Split` cuts at the first instance of the separator and goes on with what
follows it. -/
theorem stringsSplit_cut (sep s : GoString) (h0 : sep ≠ []) (hi : 0 ≤ stringsIndex s sep) :
    stringsSplit s sep = s.take (stringsIndex s sep).toNat
      :: stringsSplit (s.drop ((stringsIndex s sep).toNat + sep.length)) sep := by
  have hsep : 0 < sep.length := List.length_pos.mpr h0
  unfold stringsSplit
  cases hs : s.length with
  | zero =>
    have : s = [] := List.length_eq_zero.mp hs
    subst this
    rw [stringsIndex, indexFrom_nil_right sep h0] at hi
    omega
  | succ n =>
    rw [genSplit]
    simp only [not_lt.mpr hi, if_false]
    congr 1
    apply genSplit_fuel sep h0
    · rw [List.length_drop]; omega
    · exact le_refl _

/-- `strings.Index` of a single byte: the length of the part before its first instance. -/
theorem indexFrom_byte (b : Nat) : ∀ (pre post : GoString) (k : Nat), b ∉ pre →
    indexFrom [b] (pre ++ b :: post) k = ((k + pre.length : Nat) : Int) := by
  intro pre
  induction pre with
  | nil =>
    intro post k _
    simp [indexFrom, List.isPrefixOf]
  | cons c cs ih =>
    intro post k h
    have hc : ¬ (b = c) := fun e => h (by simp [e])
    have hcs : b ∉ cs := fun e => h (by simp [e])
    have hp : ¬ ([b].isPrefixOf (c :: (cs ++ b :: post)) = true) := by
      simp [List.isPrefixOf, hc]
    rw [List.cons_append, indexFrom, if_neg hp, ih post (k + 1) hcs, List.length_cons]
    congr 1
    omega

/-- Splitting on a single byte: the part before the first instance, then the split of the rest. -/
theorem stringsSplit_byte_cut (b : Nat) (pre post : GoString) (h : b ∉ pre) :
    stringsSplit (pre ++ b :: post) [b] = pre :: stringsSplit post [b] := by
  have hi : stringsIndex (pre ++ b :: post) [b] = ((pre.length : Nat) : Int) := by
    rw [stringsIndex, indexFrom_byte b pre post 0 h]
    simp
  rw [stringsSplit_cut _ _ (by simp) (by rw [hi]; omega), hi]
  simp

/-- Splitting on a single byte that does not occur. -/
theorem stringsSplit_byte_last (b : Nat) (s : GoString) (h : b ∉ s) :
    stringsSplit s [b] = [s] := by
  apply stringsSplit_of_not_infix
  rintro ⟨u, v, e⟩
  exact h (by rw [← e]; simp)

/-! ## Base-16 numerals -/

theorem digitVal_hexVal_small : ∀ c < 128, ∀ d < 16, digitVal c = some d → hexVal c = some d := by
  decide

theorem hexVal_iff (c d : Nat) : hexVal c = some d ↔ digitVal c = some d ∧ d < 16 := by
  constructor
  · intro h
    exact ⟨(hexVal_spec c d h).1, (hexVal_spec c d h).2.1⟩
  · rintro ⟨h, hd⟩
    have hc : c < 128 := by
      unfold digitVal at h
      split at h
      · omega
      · split at h
        · rename_i h2
          exact lower_small c h2.2
        · cases h
    exact digitVal_hexVal_small c hc d hd h

theorem hexVal_eq_none (c : Nat) (h : hexVal c = none) :
    digitVal c = none ∨ ∃ d, digitVal c = some d ∧ d ≥ 16 := by
  cases hd : digitVal c with
  | none => exact Or.inl rfl
  | some d =>
    right
    refine ⟨d, rfl, ?_⟩
    by_contra hlt
    have := (hexVal_iff c d).mpr ⟨hd, by omega⟩
    rw [h] at this
    cases this

theorem hexDigitsValue_mono : ∀ (s : GoString) (a v : Nat),
    hexDigitsValue s a = some v → a ≤ v := by
  intro s
  induction s with
  | nil => intro a v h; simp [hexDigitsValue] at h; omega
  | cons c cs ih =>
    intro a v h
    rw [hexDigitsValue] at h
    cases hc : hexVal c with
    | none => simp [hc] at h
    | some d =>
      simp only [hc] at h
      have := ih _ _ h
      omega

/-- The `ParseUint` loop, base 16 and bit size 32, reads exactly the texts of hexadecimal
digits whose number fits 32 bits. -/
theorem parseUintLoop_hex : ∀ (s : GoString) (n v : Nat), n ≤ 2 ^ 32 - 1 →
    (parseUintLoop 16 (2 ^ 32 - 1) ((2 ^ 64 - 1) / 16 + 1) s n = .ok v
      ↔ hexDigitsValue s n = some v ∧ v ≤ 2 ^ 32 - 1) := by
  intro s
  induction s with
  | nil =>
    intro n v hn
    simp only [parseUintLoop, hexDigitsValue, Except.ok.injEq, Option.some.injEq]
    constructor
    · rintro rfl; exact ⟨rfl, hn⟩
    · rintro ⟨rfl, -⟩; rfl
  | cons c cs ih =>
    intro n v hn
    rw [hexDigitsValue]
    cases hc : hexVal c with
    | none =>
      simp only [reduceCtorEq, false_and, iff_false]
      rw [parseUintLoop]
      rcases hexVal_eq_none c hc with h | ⟨d, h, hd⟩
      · simp [h]
      · simp [h, hd]
    | some d =>
      obtain ⟨hdv, hd⟩ := (hexVal_iff c d).mp hc
      simp only []
      by_cases hfit : n * 16 + d ≤ 2 ^ 32 - 1
      · rw [parseUintLoop_step _ _ _ _ d _ _ hdv hd (by norm_num at hn ⊢; omega) hfit
          (by norm_num)]
        have := ih (n * 16 + d) v hfit
        rw [this, Nat.mul_comm n 16]
      · constructor
        · intro h
          exfalso
          rw [parseUintLoop, hdv] at h
          have h1 : n * 16 < 2 ^ 64 := by norm_num at hn ⊢; omega
          have h2 : n * 16 + d < 2 ^ 64 := by norm_num at hn ⊢; omega
          simp only [Nat.mod_eq_of_lt h1, Nat.mod_eq_of_lt h2] at h
          rw [if_neg (by omega), if_neg (by norm_num at hn ⊢; omega),
            if_pos (Or.inr (by omega))] at h
          cases h
        · rintro ⟨h, hv⟩
          have := hexDigitsValue_mono _ _ _ h
          omega

/-- The parser `strconv.ParseInt(t, 16, 32)` succeeds exactly on the valid base-16 numerals
within the signed 32-bit range, with their value. -/
theorem ParseInt_hexNumeral (t : GoString) (v : Int) :
    ParseInt t 16 32 = .ok v ↔ hexNumeral t = some v := by
  cases t with
  | nil => simp [ParseInt, hexNumeral]
  | cons c0 rest =>
    have hs : (if c0 = 43 ∨ c0 = 45 then rest else c0 :: rest) = dropSign (c0 :: rest) := rfl
    simp only [ParseInt, hexNumeral, hs, ParseUint]
    by_cases hnil : dropSign (c0 :: rest) = []
    · simp [hnil]
    · simp only [hnil, if_false]
      cases hp : parseUintLoop 16 (2 ^ 32 - 1) ((2 ^ 64 - 1) / 16 + 1)
          (dropSign (c0 :: rest)) 0 with
      | error e =>
        have hno : ∀ n, ¬ (hexDigitsValue (dropSign (c0 :: rest)) 0 = some n
            ∧ n ≤ 2 ^ 32 - 1) := by
          intro n hn
          have := (parseUintLoop_hex _ 0 n (by norm_num)).mpr hn
          rw [hp] at this
          cases this
        cases e <;>
        · simp only [reduceCtorEq, false_iff]
          cases hv : hexDigitsValue (dropSign (c0 :: rest)) 0 with
          | none => simp
          | some n =>
            have hbig : ¬ n ≤ 2 ^ 32 - 1 := fun h => hno n ⟨hv, h⟩
            have h1 : ¬ n ≤ 2147483648 := by norm_num at hbig ⊢; omega
            have h2 : ¬ n < 2147483648 := by norm_num at hbig ⊢; omega
            simp [h1, h2]
      | ok un =>
        obtain ⟨hv, hle⟩ := (parseUintLoop_hex _ 0 un (by norm_num)).mp hp
        simp only [hv]
        by_cases hneg : c0 = 45
        · simp only [hneg, not_true_eq_false, false_and, if_false, true_and, if_true]
          by_cases hr : 2147483648 < un
          · have : ¬ un ≤ 2147483648 := by omega
            simp [hr, this]
          · have : un ≤ 2147483648 := by omega
            simp [hr, this]
        · simp only [hneg, not_false_eq_true, true_and, false_and, if_false]
          by_cases hr : 2147483648 ≤ un
          · have : ¬ un < 2147483648 := by omega
            simp [hr, this]
          · have : un < 2147483648 := by omega
            simp [hr, this]

/-- The value of a token is the numeral after its first `'x'`. -/
theorem tokenValue_eq_numeral (s : GoString) : tokenValue s = numeralAfterX s := by
  unfold tokenValue numeralAfterX
  cases afterX s with
  | none => rfl
  | some t =>
    show (match ParseInt t 16 32 with
      | .ok v => some v
      | .error _ => none) = hexNumeral t
    cases hp : ParseInt t 16 32 with
    | error e =>
      cases hn : hexNumeral t with
      | none => rfl
      | some v =>
        have := (ParseInt_hexNumeral t v).mpr hn
        rw [hp] at this
        cases this
    | ok v => exact ((ParseInt_hexNumeral t v).mp hp).symm

/-! ## The first occurrence of a separator -/

/-- `strings.Index` finds an occurrence at or before any given one. -/
theorem indexFrom_le (sep : GoString) : ∀ (p q : GoString) (k : Nat),
    (k : Int) ≤ indexFrom sep (p ++ sep ++ q) k
      ∧ indexFrom sep (p ++ sep ++ q) k ≤ ((k + p.length : Nat) : Int) := by
  intro p
  induction p with
  | nil =>
    intro q k
    simp only [List.nil_append, List.length_nil, Nat.add_zero]
    cases hs : sep ++ q with
    | nil =>
      have : sep = [] := (List.append_eq_nil.mp hs).1
      simp [indexFrom, this]
    | cons c cs =>
      have hp : sep.isPrefixOf (c :: cs) = true := by
        rw [← hs]
        exact List.isPrefixOf_iff_prefix.mpr ⟨q, rfl⟩
      rw [indexFrom, if_pos hp]
      exact ⟨le_refl _, le_refl _⟩
  | cons c p ih =>
    intro q k
    simp only [List.cons_append, List.length_cons]
    rw [indexFrom]
    split
    · constructor <;> omega
    · have := ih q (k + 1)
      simp only [List.append_assoc] at this ⊢
      constructor <;> omega

/-- At the first occurrence of `sep`, `strings.Index` is the length of what precedes it. -/
theorem indexFrom_first (sep : GoString) : ∀ (pre s post : GoString) (k : Nat),
    FirstOccurrence sep s pre post → indexFrom sep s k = ((k + pre.length : Nat) : Int) := by
  intro pre
  induction pre with
  | nil =>
    intro s post k h
    have := indexFrom_le sep [] post k
    rw [h.1]
    simp only [List.length_nil, Nat.add_zero] at this ⊢
    omega
  | cons c pre ih =>
    intro s post k h
    obtain ⟨hs, hmin⟩ := h
    subst hs
    have hnp : ¬ sep.isPrefixOf (c :: pre ++ sep ++ post) = true := by
      intro hp
      obtain ⟨q, hq⟩ := List.isPrefixOf_iff_prefix.mp hp
      have := hmin [] q (by simp [hq])
      simp at this
    have hfirst : FirstOccurrence sep (pre ++ sep ++ post) pre post := by
      refine ⟨rfl, ?_⟩
      intro p q hpq
      have := hmin (c :: p) q (by simp [hpq])
      simp only [List.length_cons] at this
      omega
    simp only [List.cons_append] at hnp ⊢
    rw [indexFrom, if_neg hnp, ih _ post (k + 1) hfirst, List.length_cons]
    congr 1
    omega

/-- Where `strings.Index` points is the first occurrence. -/
theorem firstOccurrence_of_index (sep s pre post : GoString) (hs : s = pre ++ sep ++ post)
    (hi : stringsIndex s sep = (pre.length : Int)) : FirstOccurrence sep s pre post := by
  refine ⟨hs, ?_⟩
  intro p q hpq
  have := (indexFrom_le sep p q 0).2
  rw [← hpq] at this
  unfold stringsIndex at hi
  rw [hi] at this
  simp only [Nat.zero_add] at this
  omega

/-- `strings.Split` at the first occurrence of the separator. -/
theorem stringsSplit_first (sep s pre post : GoString) (h0 : sep ≠ [])
    (h : FirstOccurrence sep s pre post) :
    stringsSplit s sep = pre :: stringsSplit post sep := by
  have hi : stringsIndex s sep = ((pre.length : Nat) : Int) := by
    rw [stringsIndex, indexFrom_first sep pre s post 0 h]
    simp
  rw [stringsSplit_cut sep s h0 (by rw [hi]; omega), hi, h.1]
  simp only [Int.toNat_ofNat, List.append_assoc, List.take_left']
  congr 1
  rw [← List.append_assoc, List.drop_left' (by simp)]

/-- The second element of the split at a marker: what stands between the first occurrence of
the marker and the next one. -/
theorem split_second (sep s pre rest : GoString) (h0 : sep ≠ [])
    (h : FirstOccurrence sep s pre rest) :
    2 ≤ (stringsSplit s sep).length
    ∧ (¬ sep <:+: rest → (stringsSplit s sep).getD 1 [] = rest)
    ∧ (∀ seg rest2, FirstOccurrence sep rest seg rest2 →
        (stringsSplit s sep).getD 1 [] = seg) := by
  rw [stringsSplit_first sep s pre rest h0 h]
  refine ⟨?_, ?_, ?_⟩
  · cases hn : stringsSplit rest sep with
    | nil =>
      exfalso
      unfold stringsSplit at hn
      cases hl : rest.length with
      | zero => rw [hl] at hn; simp [genSplit] at hn
      | succ n =>
        rw [hl, genSplit] at hn
        split at hn <;> cases hn
    | cons a as => simp
  · intro hno
    rw [ stringsSplit_of_not_infix sep rest hno]
    rfl
  · intro seg rest2 h2
    rw [stringsSplit_first sep rest seg rest2 h0 h2]
    rfl

/-! ## Claims on `threshToHexArg` -/

/-- C1: for every `min` and `max` in the percentage range 0..100, `threshToHexArg min max` is
exactly the decimal string of `max * 2^24 + min * 2^16`: the standard numeral, made of digits
only (no sign) and without a leading zero unless it is `"0"`; and
`threshToHexArg 60 80 = "1346109440"`. -/
theorem threshToHexArg_percent (min max : Int) (hmin0 : 0 ≤ min) (hmin : min ≤ 100)
    (hmax0 : 0 ≤ max) (hmax : max ≤ 100) :
    threshToHexArg min max = decimalString (max * 2 ^ 24 + min * 2 ^ 16).toNat
    ∧ (∀ c ∈ threshToHexArg min max, 48 ≤ c ∧ c ≤ 57)
    ∧ (threshToHexArg min max = lit "0" ∨ (threshToHexArg min max).head? ≠ some 48)
    ∧ threshToHexArg 60 80 = lit "1346109440" := by
  obtain ⟨b, rfl⟩ := Int.eq_ofNat_of_zero_le hmin0
  obtain ⟨a, rfl⟩ := Int.eq_ofNat_of_zero_le hmax0
  have ha : a ≤ 100 := by omega
  have hb : b ≤ 100 := by omega
  have e := threshToHexArg_nat a b (by omega) (by omega)
  rw [if_neg (by omega)] at e
  have hlt : a * 2 ^ 24 + b * 2 ^ 16 < 2 ^ 64 := by norm_num; omega
  have e2 : threshToHexArg (b : Int) (a : Int)
      = formatBits 10 64 (a * 2 ^ 24 + b * 2 ^ 16) [] := by
    rw [e, ← FormatInt_decimal _ hlt]
    have hneg : ¬ (((a * 2 ^ 24 + b * 2 ^ 16 : Nat) : Int) < 0) := by omega
    simp only [FormatInt, hneg, if_false, Int.natAbs_ofNat]
  refine ⟨by rw [toNat_encoded, e], ?_, ?_, by decide⟩
  · rw [e2]
    exact formatBits_digits 64 _ [] hlt (by simp)
  · rw [e2]
    obtain ⟨d, rest, hd, hpos, hf⟩ := formatBits_head 64 (a * 2 ^ 24 + b * 2 ^ 16) [] hlt
    by_cases hz : a * 2 ^ 24 + b * 2 ^ 16 = 0
    · left
      rw [hz]
      decide
    · right
      rw [hf]
      have := hpos (by omega)
      simp only [List.head?_cons, ne_eq, Option.some.injEq]
      unfold digitByte
      split <;> omega

/-- C1, at `min = 60`, `max = 80`. -/
theorem threshToHexArg_percent_witness :
    (0 : Int) ≤ 60 ∧ (60 : Int) ≤ 100 ∧ (0 : Int) ≤ 80 ∧ (80 : Int) ≤ 100
    ∧ threshToHexArg 60 80 = decimalString ((80 : Int) * 2 ^ 24 + 60 * 2 ^ 16).toNat :=
  ⟨by decide, by decide, by decide, by decide,
    (threshToHexArg_percent 60 80 (by decide) (by decide) (by decide) (by decide)).1⟩

/-- C2 as stated fails at `min = 0`, `max = 128`: the hex string `80000000` is outside the
signed 32-bit range, so the result is `"0"` and not the decimal string of `128 * 2^24`. -/
theorem threshToHexArg_max128_zero :
    threshToHexArg 0 128 = lit "0"
    ∧ threshToHexArg 0 128 ≠ decimalString ((128 : Int) * 2 ^ 24 + 0 * 2 ^ 16).toNat := by
  decide

/-- C2, amended: for every `min` in 0..255 and `max` in 0..127, `threshToHexArg min max` is the
decimal string of `max * 2^24 + min * 2^16`; for `max` in 128..255 it is `"0"`. -/
theorem threshToHexArg_byte (min max : Int) (hmin0 : 0 ≤ min) (hmin : min ≤ 255)
    (hmax0 : 0 ≤ max) (hmax : max ≤ 255) :
    (max ≤ 127 → threshToHexArg min max = decimalString (max * 2 ^ 24 + min * 2 ^ 16).toNat)
    ∧ (128 ≤ max → threshToHexArg min max = lit "0") := by
  obtain ⟨b, rfl⟩ := Int.eq_ofNat_of_zero_le hmin0
  obtain ⟨a, rfl⟩ := Int.eq_ofNat_of_zero_le hmax0
  have e := threshToHexArg_nat a b (by omega) (by omega)
  constructor
  · intro h
    rw [if_neg (by omega)] at e
    rw [toNat_encoded, e]
  · intro h
    rw [if_pos (by omega)] at e
    exact e

/-- C2 amended, at `min = 255`, `max = 127`. -/
theorem threshToHexArg_byte_witness :
    (0 : Int) ≤ 255 ∧ (255 : Int) ≤ 255 ∧ (0 : Int) ≤ 127 ∧ (127 : Int) ≤ 255
    ∧ threshToHexArg 255 127 = decimalString ((127 : Int) * 2 ^ 24 + 255 * 2 ^ 16).toNat :=
  ⟨by decide, by decide, by decide, by decide,
    (threshToHexArg_byte 255 127 (by decide) (by decide) (by decide) (by decide)).1 (by decide)⟩

/-- C3 as stated fails at `min = 0`, `max = 128`: the string read back is 0, whose decoded
`max` is 0, and the pairs `(0, 128)` and `(1, 200)` are encoded alike. -/
theorem encoder_collides_from_max128 :
    readDecimal (threshToHexArg 0 128) = .ok 0
    ∧ ((0 : Int) / 2 ^ 24) % 256 ≠ 128
    ∧ threshToHexArg 0 128 = threshToHexArg 1 200 :=
  ⟨rfl, by decide, by decide⟩

/-- C3, amended: for every `min` in 0..255 and `max` in 0..127, the decimal string
`threshToHexArg min max` reads back as an integer `n` with `(n / 2^24) mod 256 = max` and
`(n / 2^16) mod 256 = min`; hence the encoder is injective on these pairs. -/
theorem threshToHexArg_roundtrip (min max : Int) (hmin0 : 0 ≤ min) (hmin : min ≤ 255)
    (hmax0 : 0 ≤ max) (hmax : max ≤ 127) :
    (∃ n : Int, readDecimal (threshToHexArg min max) = .ok n
      ∧ (n / 2 ^ 24) % 256 = max ∧ (n / 2 ^ 16) % 256 = min)
    ∧ (∀ min2 max2 : Int, 0 ≤ min2 → min2 ≤ 255 → 0 ≤ max2 → max2 ≤ 127 →
        threshToHexArg min max = threshToHexArg min2 max2 → min = min2 ∧ max = max2) := by
  obtain ⟨b, rfl⟩ := Int.eq_ofNat_of_zero_le hmin0
  obtain ⟨a, rfl⟩ := Int.eq_ofNat_of_zero_le hmax0
  have key : ∀ a b : Nat, a ≤ 127 → b ≤ 255 →
      readDecimal (threshToHexArg (b : Int) (a : Int))
        = .ok ((a * 2 ^ 24 + b * 2 ^ 16 : Nat) : Int) := by
    intro a b ha hb
    have e := threshToHexArg_nat a b (by omega) hb
    rw [if_neg (by omega)] at e
    rw [e, ← FormatInt_decimal _ (by norm_num; omega)]
    exact ParseInt_FormatInt _ (by norm_num; omega)
  constructor
  · refine ⟨_, key a b (by omega) (by omega), ?_, ?_⟩
    · push_cast; omega
    · push_cast; omega
  · intro min2 max2 h1 h2 h3 h4 heq
    obtain ⟨b2, rfl⟩ := Int.eq_ofNat_of_zero_le h1
    obtain ⟨a2, rfl⟩ := Int.eq_ofNat_of_zero_le h3
    have k1 := key a b (by omega) (by omega)
    have k2 := key a2 b2 (by omega) (by omega)
    rw [heq, k2] at k1
    have := Except.ok.inj k1
    have : a2 * 2 ^ 24 + b2 * 2 ^ 16 = a * 2 ^ 24 + b * 2 ^ 16 := by exact_mod_cast this
    constructor <;> omega

/-- C3 amended, at `min = 60`, `max = 80`. -/
theorem threshToHexArg_roundtrip_witness :
    (0 : Int) ≤ 60 ∧ (60 : Int) ≤ 255 ∧ (0 : Int) ≤ 80 ∧ (80 : Int) ≤ 127
    ∧ ∃ n : Int, readDecimal (threshToHexArg 60 80) = .ok n
      ∧ (n / 2 ^ 24) % 256 = 80 ∧ (n / 2 ^ 16) % 256 = 60 :=
  ⟨by decide, by decide, by decide, by decide,
    (threshToHexArg_roundtrip 60 80 (by decide) (by decide) (by decide) (by decide)).1⟩

/-! ## Claims on the log parsers -/

theorem lit_0x : lit ", 0x" = 44 :: [32, 48, 120] := by decide

theorem lit_x0x : lit ", x0x" = 44 :: [32, 120, 48, 120] := by decide

/-- The fragments of `marker, pHH, pHH` for a short token head `p` without a comma. -/
theorem fragmentsAfter_two_tokens (p : GoString) (h1 h2 h3 h4 : Nat) (hp : 44 ∉ p)
    (hl : p.length ≤ 10)
    (n1 : h1 ≠ 44) (n2 : h2 ≠ 44) (n3 : h3 ≠ 44) (n4 : h4 ≠ 44) :
    fragmentsAfter (lit "Reading (hexadecimal values):")
        (lit "Reading (hexadecimal values):" ++ (44 :: p) ++ [h1, h2] ++ (44 :: p) ++ [h3, h4])
      = [[], p ++ [h1, h2], p ++ [h3, h4]] := by
  have hm : (lit "Reading (hexadecimal values):").length = 29 := by decide
  simp only [List.append_assoc]
  rw [fragmentsAfter, stringsSplit_starts _ _ (by decide) (by simp [hm]; omega), lit_comma]
  simp only [List.getD_cons_succ, List.getD_cons_zero, List.cons_append, List.append_assoc,
    List.nil_append]
  have e1 : 44 :: (p ++ h1 :: h2 :: 44 :: (p ++ [h3, h4]))
      = [] ++ 44 :: ((p ++ [h1, h2]) ++ 44 :: (p ++ [h3, h4])) := by simp
  rw [e1, stringsSplit_byte_cut 44 _ _ (by simp),
    stringsSplit_byte_cut 44 _ _ (by simp [hp, n1.symm, n2.symm]),
    stringsSplit_byte_last 44 _ (by simp [hp, n3.symm, n4.symm])]

/-- C5 as stated fails: on the fragments of `marker, x0x50, x0x3c` the text after the first
`'x'` of a token is `0x50`, which `ParseInt(h, 16, 32)` rejects, so `getHexValues` returns an
error for the expected count 2 (as it does for 3). -/
theorem getHexValues_x0x_fails :
    getHexValues (fragmentsAfter (lit "Reading (hexadecimal values):")
        (lit "Reading (hexadecimal values):, x0x50, x0x3c")) 2 = .error failHex
    ∧ getHexValues (fragmentsAfter (lit "Reading (hexadecimal values):")
        (lit "Reading (hexadecimal values):, x0x50, x0x3c")) 3 = .error failHex :=
  ⟨rfl, rfl⟩

/-- C5, amended: for every pair of two-digit hexadecimal byte values written in the shape
`, 0xHH, 0xHH` after the marker (no `'x'` before the `0x`), splitting after the marker on commas
and calling `getHexValues` with expected count 2 succeeds with the two values in that order, and
with expected count 3 returns an error; written in the shape `, x0xHH, x0xHH`, `getHexValues`
returns an error for both counts. -/
theorem getHexValues_two_tokens (h1 h2 h3 h4 v1 v2 v3 v4 : Nat)
    (e1 : hexVal h1 = some v1) (e2 : hexVal h2 = some v2)
    (e3 : hexVal h3 = some v3) (e4 : hexVal h4 = some v4) :
    getHexValues (fragmentsAfter (lit "Reading (hexadecimal values):")
        (lit "Reading (hexadecimal values):" ++ lit ", 0x" ++ [h1, h2] ++ lit ", 0x" ++ [h3, h4]))
        2 = .ok [((16 * v1 + v2 : Nat) : Int), ((16 * v3 + v4 : Nat) : Int)]
    ∧ getHexValues (fragmentsAfter (lit "Reading (hexadecimal values):")
        (lit "Reading (hexadecimal values):" ++ lit ", 0x" ++ [h1, h2] ++ lit ", 0x" ++ [h3, h4]))
        3 = .error failHex
    ∧ getHexValues (fragmentsAfter (lit "Reading (hexadecimal values):")
        (lit "Reading (hexadecimal values):" ++ lit ", x0x" ++ [h1, h2] ++ lit ", x0x"
          ++ [h3, h4])) 2 = .error failHex
    ∧ getHexValues (fragmentsAfter (lit "Reading (hexadecimal values):")
        (lit "Reading (hexadecimal values):" ++ lit ", x0x" ++ [h1, h2] ++ lit ", x0x"
          ++ [h3, h4])) 3 = .error failHex := by
  obtain ⟨-, -, -, -, n1, x1⟩ := hexVal_spec h1 v1 e1
  obtain ⟨-, -, -, -, n2, x2⟩ := hexVal_spec h2 v2 e2
  obtain ⟨-, -, -, -, n3, x3⟩ := hexVal_spec h3 v3 e3
  obtain ⟨-, -, -, -, n4, x4⟩ := hexVal_spec h4 v4 e4
  rw [lit_0x, lit_x0x,
    fragmentsAfter_two_tokens _ h1 h2 h3 h4 (by decide) (by decide) n1 n2 n3 n4,
    fragmentsAfter_two_tokens _ h1 h2 h3 h4 (by decide) (by decide) n1 n2 n3 n4]
  have hvt : valueTokens [[], [32, 48, 120] ++ [h1, h2], [32, 48, 120] ++ [h3, h4]]
      = [[32, 48, 120, h1, h2], [32, 48, 120, h3, h4]] := by
    simp [valueTokens, List.filter_cons]
  have t1 : tokenValue [32, 48, 120, h1, h2] = some ((16 * v1 + v2 : Nat) : Int) := by
    simp [tokenValue, afterX, ParseInt_two_hex h1 h2 v1 v2 e1 e2]
  have t2 : tokenValue [32, 48, 120, h3, h4] = some ((16 * v3 + v4 : Nat) : Int) := by
    simp [tokenValue, afterX, ParseInt_two_hex h3 h4 v3 v4 e3 e4]
  have bad : ∀ num : Int, getHexValues
      [[], [32, 120, 48, 120] ++ [h1, h2], [32, 120, 48, 120] ++ [h3, h4]] num
        = .error failHex := by
    intro num
    apply getHexValues_of_valueless_token _ num ([32, 120, 48, 120] ++ [h1, h2]) (by simp) (by simp)
    obtain ⟨e, he⟩ := ParseInt_0x [h1, h2]
    simp [tokenValue, afterX, he]
  refine ⟨?_, ?_, bad 2, bad 3⟩
  · rw [getHexValues_ok, hvt]
    simp [t1, t2]
  · cases hr : getHexValues [[], [32, 48, 120] ++ [h1, h2], [32, 48, 120] ++ [h3, h4]] 3 with
    | error e => rw [getHexValues_error _ _ e hr]
    | ok r =>
      exfalso
      obtain ⟨hlen, hmap⟩ := (getHexValues_ok _ _ _).mp hr
      rw [hvt] at hmap
      have := congrArg List.length hmap
      simp only [List.map_cons, List.map_nil, List.length_cons, List.length_nil,
        List.length_map] at this
      omega

/-- C5 amended, on `marker, 0x50, 0x3c`: the values are `[80, 60]`. -/
theorem getHexValues_two_tokens_witness :
    hexVal 53 = some 5 ∧ hexVal 48 = some 0 ∧ hexVal 51 = some 3 ∧ hexVal 99 = some 12
    ∧ lit "Reading (hexadecimal values):" ++ lit ", 0x" ++ [53, 48] ++ lit ", 0x" ++ [51, 99]
        = lit "Reading (hexadecimal values):, 0x50, 0x3c"
    ∧ getHexValues (fragmentsAfter (lit "Reading (hexadecimal values):")
        (lit "Reading (hexadecimal values):" ++ lit ", 0x" ++ [53, 48] ++ lit ", 0x" ++ [51, 99]))
        2 = .ok [80, 60] :=
  ⟨rfl, rfl, rfl, rfl, by decide,
    (getHexValues_two_tokens 53 48 51 99 5 0 3 12 rfl rfl rfl rfl).1⟩

/-- C6 as stated fails: after the marker, `, x0x1` gives an error, not `true` (the text after
the first `'x'` is `0x1`). -/
theorem getFnlockFromLog_x0x_fails :
    getFnlockFromLog (lit "Reading Fn-Lock state, x0x1") = .error failHex
    ∧ getFnlockFromLog (lit "Reading Fn-Lock state, x0x0") = .error failHex :=
  ⟨rfl, rfl⟩

/-- C6, amended: `getFnlockFromLog` applied to the marker followed by `, 0x1` returns
`state = true` with no error, and applied to the marker followed by `, 0x0` returns
`state = false` with no error. -/
theorem getFnlockFromLog_states :
    getFnlockFromLog (lit "Reading Fn-Lock state" ++ lit ", 0x1") = .ok true
    ∧ getFnlockFromLog (lit "Reading Fn-Lock state" ++ lit ", 0x0") = .ok false :=
  ⟨rfl, rfl⟩

/-- C7: for every log text that does not contain the marker substring
(`"Reading (hexadecimal values):"` for `getThreshFromLog`, `"Reading Fn-Lock state"` for
`getFnlockFromLog`), the parser returns an error, whatever tokens the text contains. -/
theorem parsers_without_marker (log : GoString) :
    (¬ lit "Reading (hexadecimal values):" <:+: log → getThreshFromLog log = .error failLog)
    ∧ (¬ lit "Reading Fn-Lock state" <:+: log → getFnlockFromLog log = .error failLog) := by
  constructor
  · intro h
    simp [getThreshFromLog, stringsSplit_of_not_infix _ _ h]
  · intro h
    simp [getFnlockFromLog, stringsSplit_of_not_infix _ _ h]

/-- C7, on the text `, 0x50, 0x3c, 0x1`, which has well-formed tokens and no marker. -/
theorem parsers_without_marker_witness :
    ¬ lit "Reading (hexadecimal values):" <:+: lit ", 0x50, 0x3c, 0x1"
    ∧ ¬ lit "Reading Fn-Lock state" <:+: lit ", 0x50, 0x3c, 0x1"
    ∧ getThreshFromLog (lit ", 0x50, 0x3c, 0x1") = .error failLog
    ∧ getFnlockFromLog (lit ", 0x50, 0x3c, 0x1") = .error failLog :=
  ⟨by decide, by decide,
    (parsers_without_marker (lit ", 0x50, 0x3c, 0x1")).1 (by decide),
    (parsers_without_marker (lit ", 0x50, 0x3c, 0x1")).2 (by decide)⟩

/-- C8 as stated fails: the fragment `0x5` has one character after its `'x'`, fewer than 2,
and `getHexValues` accepts it with the value 5. -/
theorem getHexValues_one_digit_accepted :
    afterX (lit "0x5") = some (lit "5") ∧ (lit "5").length < 2
    ∧ getHexValues [lit "0x5"] 1 = .ok [5] :=
  ⟨rfl, by decide, rfl⟩

/-- C8, amended: for every fragment list that contains a fragment whose first `'x'` is followed
by no character (fewer than 1), `getHexValues` returns an error for every expected count. -/
theorem getHexValues_nothing_after_x (l : List GoString) (num : Int)
    (h : ∃ s ∈ l, ∃ t, afterX s = some t ∧ t.length < 1) :
    getHexValues l num = .error failHex := by
  obtain ⟨s, hs, t, ht, hlen⟩ := h
  have : t = [] := List.length_eq_zero.mp (by omega)
  exact getHexValues_of_valueless_token l num s hs (mem_of_afterX s t ht) (tokenValue_bad s t ht (Or.inl this))

/-- C8 amended, on the fragments `["", " 0x50", " 0x"]`. -/
theorem getHexValues_nothing_after_x_witness :
    (∃ s ∈ [lit "", lit " 0x50", lit " 0x"], ∃ t, afterX s = some t ∧ t.length < 1)
    ∧ getHexValues [lit "", lit " 0x50", lit " 0x"] 2 = .error failHex :=
  ⟨⟨lit " 0x", by decide, [], rfl, by decide⟩,
    getHexValues_nothing_after_x [lit "", lit " 0x50", lit " 0x"] 2
      ⟨lit " 0x", by decide, [], rfl, by decide⟩⟩

/-- C9: a single bad token fails the whole parse. For every fragment list containing a fragment
with an `'x'` whose text after its first `'x'` is empty or contains a character that is not a
hexadecimal digit (one leading sign apart), `getHexValues` returns an error for every expected
count, regardless of the other fragments. -/
theorem getHexValues_bad_token (l : List GoString) (num : Int)
    (h : ∃ s ∈ l, ∃ t, afterX s = some t ∧ (t = [] ∨ ∃ c ∈ dropSign t, ¬ isHexDigit c)) :
    getHexValues l num = .error failHex := by
  obtain ⟨s, hs, t, ht, hbad⟩ := h
  exact getHexValues_of_valueless_token l num s hs (mem_of_afterX s t ht) (tokenValue_bad s t ht hbad)

/-- C9, on the fragments `[" 0x50", " 0x3g"]`: the second token has the non-digit `'g'`. -/
theorem getHexValues_bad_token_witness :
    (∃ s ∈ [lit " 0x50", lit " 0x3g"], ∃ t, afterX s = some t
      ∧ (t = [] ∨ ∃ c ∈ dropSign t, ¬ isHexDigit c))
    ∧ getHexValues [lit " 0x50", lit " 0x3g"] 2 = .error failHex :=
  ⟨⟨lit " 0x3g", by decide, lit "3g", rfl, Or.inr ⟨103, by decide, by decide⟩⟩,
    getHexValues_bad_token [lit " 0x50", lit " 0x3g"] 2
      ⟨lit " 0x3g", by decide, lit "3g", rfl, Or.inr ⟨103, by decide, by decide⟩⟩⟩

/-- The loop of `getHexValues` does not see an inserted fragment without `'x'`. -/
theorem getHexValuesLoop_insert (f : GoString) (hf : 120 ∉ f) (l2 : List GoString) :
    ∀ (l1 : List GoString) (val : List Int),
      getHexValuesLoop (l1 ++ f :: l2) val = getHexValuesLoop (l1 ++ l2) val := by
  intro l1
  induction l1 with
  | nil => intro val; exact getHexValuesLoop_skip f l2 val hf
  | cons s rest ih =>
    intro val
    simp only [List.cons_append]
    rw [getHexValuesLoop_cons, getHexValuesLoop_cons]
    cases afterX s with
    | none => exact ih val
    | some t =>
      dsimp only
      cases ParseInt t 16 32 with
      | error e => rfl
      | ok v => exact ih _

/-- C10: fragments without an `'x'` are ignored. For every fragment list `l1 ++ l2`, every
expected count `num` and every string `f` that contains no `'x'`, inserting `f` at any position
(between `l1` and `l2`) leaves the result of `getHexValues` unchanged: the same values in the
same order, or an error in both cases. -/
theorem getHexValues_insert (l1 l2 : List GoString) (num : Int) (f : GoString)
    (hf : 120 ∉ f) : getHexValues (l1 ++ f :: l2) num = getHexValues (l1 ++ l2) num := by
  unfold getHexValues
  rw [getHexValuesLoop_insert f hf l2 l1 []]

/-- C10, inserting the fragment `" end"` between `" 0x50"` and `" 0x3c"`. -/
theorem getHexValues_insert_witness :
    120 ∉ lit " end"
    ∧ getHexValues ([lit " 0x50"] ++ lit " end" :: [lit " 0x3c"]) 2
      = getHexValues ([lit " 0x50"] ++ [lit " 0x3c"]) 2
    ∧ getHexValues ([lit " 0x50"] ++ [lit " 0x3c"]) 2 = .ok [80, 60] :=
  ⟨by decide, getHexValues_insert [lit " 0x50"] [lit " 0x3c"] 2 (lit " end") (by decide), rfl⟩

/-! ## Claims on the endpoints -/

/-- Unfolding of one round of the confirmation loop that does not confirm. -/
theorem pollLoop_continue {σ : Type} (sfe : splitFnlockEndpoint σ) (sleep : Nat → σ → σ)
    (state : Bool) (n : Nat) (st : σ) (tr : List Event)
    (h : ((sfe.get (sleep 900 st)).1.1 != state && (sfe.get (sleep 900 st)).1.2 = none)
      = false) :
    pollLoop sfe sleep state (n + 1) st tr
      = pollLoop sfe sleep state n (sfe.get (sleep 900 st)).2
          (tr ++ [.sleep 900, .logTrace "checking state, attempt", .get]
            ++ [.logTrace "not set yet"]) := by
  rw [pollLoop]
  simp only [h, Bool.false_eq_true, if_false]

/-- Unfolding of the round of the confirmation loop that confirms. -/
theorem pollLoop_break {σ : Type} (sfe : splitFnlockEndpoint σ) (sleep : Nat → σ → σ)
    (state : Bool) (n : Nat) (st : σ) (tr : List Event)
    (h : ((sfe.get (sleep 900 st)).1.1 != state && (sfe.get (sleep 900 st)).1.2 = none)
      = true) :
    pollLoop sfe sleep state (n + 1) st tr
      = ((sfe.get (sleep 900 st)).2,
          tr ++ [.sleep 900, .logTrace "checking state, attempt", .get]
            ++ [.logTrace "state set as expected"]) := by
  rw [pollLoop]
  simp only [h, if_true]

theorem calls_append (a b : List Event) : calls (a ++ b) = calls a ++ calls b := by
  simp [calls]

/-- The calls of the confirmation loop: as many rounds of one delay and one `get` as
`confirmRounds` says. -/
theorem calls_pollLoop {σ : Type} (sfe : splitFnlockEndpoint σ) (sleep : Nat → σ → σ)
    (state : Bool) (st : σ) (tr : List Event) :
    calls (pollLoop sfe sleep state 4 st tr).2
      = calls tr ++ (List.replicate (confirmRounds sfe sleep state st)
          [Event.sleep 900, Event.get]).flatten := by
  have hc : ∀ t : String, calls [Event.sleep 900, .logTrace "checking state, attempt", .get,
      .logTrace t] = [Event.sleep 900, .get] := fun t => rfl
  cases h1 : ((sfe.get (sleep 900 st)).1.1 != state && (sfe.get (sleep 900 st)).1.2 = none)
  · rw [pollLoop_continue _ _ _ _ _ _ h1]
    generalize hs1 : (sfe.get (sleep 900 st)).2 = st1
    cases h2 : ((sfe.get (sleep 900 st1)).1.1 != state && (sfe.get (sleep 900 st1)).1.2 = none)
    · rw [pollLoop_continue _ _ _ _ _ _ h2]
      generalize hs2 : (sfe.get (sleep 900 st1)).2 = st2
      cases h3 : ((sfe.get (sleep 900 st2)).1.1 != state
          && (sfe.get (sleep 900 st2)).1.2 = none)
      · rw [pollLoop_continue _ _ _ _ _ _ h3]
        generalize hs3 : (sfe.get (sleep 900 st2)).2 = st3
        have hr : confirmRounds sfe sleep state st = 4 := by
          cases h4 : ((sfe.get (sleep 900 st3)).1.1 != state
              && (sfe.get (sleep 900 st3)).1.2 = none) <;>
            simp [confirmRounds, confirmGet, afterRounds, List.find?, h1, hs1, h2, hs2, h3, hs3,
              h4]
        cases h4 : ((sfe.get (sleep 900 st3)).1.1 != state
            && (sfe.get (sleep 900 st3)).1.2 = none)
        · rw [pollLoop_continue _ _ _ _ _ _ h4, pollLoop, hr]
          simp only [calls_append, List.append_assoc, List.cons_append, List.nil_append, hc]
          simp [calls, List.replicate]
        · rw [pollLoop_break _ _ _ _ _ _ h4, hr]
          simp only [calls_append, List.append_assoc, List.cons_append, List.nil_append, hc]
          simp [calls, List.replicate]
      · have hr : confirmRounds sfe sleep state st = 3 := by
          simp [confirmRounds, confirmGet, afterRounds, List.find?, h1, hs1, h2, hs2, h3]
        rw [pollLoop_break _ _ _ _ _ _ h3, hr]
        simp only [calls_append, List.append_assoc, List.cons_append, List.nil_append, hc]
        simp [calls, List.replicate]
    · have hr : confirmRounds sfe sleep state st = 2 := by
        simp [confirmRounds, confirmGet, afterRounds, List.find?, h1, hs1, h2]
      rw [pollLoop_break _ _ _ _ _ _ h2, hr]
      simp only [calls_append, List.append_assoc, List.cons_append, List.nil_append, hc]
      simp [calls, List.replicate]
  · have hr : confirmRounds sfe sleep state st = 1 := by
      simp [confirmRounds, confirmGet, afterRounds, List.find?, h1]
    rw [pollLoop_break _ _ _ _ _ _ h1, hr]
    simp only [calls_append, List.append_assoc, List.cons_append, List.nil_append, hc]
    simp [calls, List.replicate]

/-- What the `i`-th confirmation `get` says: no error and a state different from `state`. -/
theorem confirmRounds_spec {σ : Type} (sfe : splitFnlockEndpoint σ) (sleep : Nat → σ → σ)
    (state : Bool) (st : σ) :
    1 ≤ confirmRounds sfe sleep state st ∧ confirmRounds sfe sleep state st ≤ 4
    ∧ (∀ i, 1 ≤ i → i < confirmRounds sfe sleep state st →
        ¬ ((confirmGet sfe sleep i st).1 ≠ state ∧ (confirmGet sfe sleep i st).2 = none))
    ∧ (confirmRounds sfe sleep state st < 4 →
        (confirmGet sfe sleep (confirmRounds sfe sleep state st) st).1 ≠ state
        ∧ (confirmGet sfe sleep (confirmRounds sfe sleep state st) st).2 = none) := by
  unfold confirmRounds
  cases h1 : ((confirmGet sfe sleep 1 st).1 != state && (confirmGet sfe sleep 1 st).2 = none)
  · cases h2 : ((confirmGet sfe sleep 2 st).1 != state && (confirmGet sfe sleep 2 st).2 = none)
    · cases h3 : ((confirmGet sfe sleep 3 st).1 != state
          && (confirmGet sfe sleep 3 st).2 = none)
      · have h4 : ([1, 2, 3, 4].find? (fun i => (confirmGet sfe sleep i st).1 != state
            && (confirmGet sfe sleep i st).2 = none)).getD 4 = 4 := by
          cases h4 : ((confirmGet sfe sleep 4 st).1 != state
              && (confirmGet sfe sleep 4 st).2 = none) <;>
            simp [List.find?, h1, h2, h3, h4]
        rw [h4]
        refine ⟨by omega, by omega, ?_, by omega⟩
        intro i hi1 hi4
        have : i = 1 ∨ i = 2 ∨ i = 3 := by omega
        rcases this with rfl | rfl | rfl
        · simpa using h1
        · simpa using h2
        · simpa using h3
      · have h4 : ([1, 2, 3, 4].find? (fun i => (confirmGet sfe sleep i st).1 != state
            && (confirmGet sfe sleep i st).2 = none)).getD 4 = 3 := by
          simp [List.find?, h1, h2, h3]
        rw [h4]
        refine ⟨by omega, by omega, ?_, fun _ => by simpa using h3⟩
        intro i hi1 hi4
        have : i = 1 ∨ i = 2 := by omega
        rcases this with rfl | rfl
        · simpa using h1
        · simpa using h2
    · have h4 : ([1, 2, 3, 4].find? (fun i => (confirmGet sfe sleep i st).1 != state
          && (confirmGet sfe sleep i st).2 = none)).getD 4 = 2 := by
        simp [List.find?, h1, h2]
      rw [h4]
      refine ⟨by omega, by omega, ?_, fun _ => by simpa using h2⟩
      intro i hi1 hi4
      have : i = 1 := by omega
      subst this
      simpa using h1
  · have h4 : ([1, 2, 3, 4].find? (fun i => (confirmGet sfe sleep i st).1 != state
        && (confirmGet sfe sleep i st).2 = none)).getD 4 = 1 := by
      simp [List.find?, h1]
    rw [h4]
    refine ⟨by omega, by omega, ?_, fun _ => by simpa using h1⟩
    intro i hi1 hi4
    omega

/-- C11, evaluated where the code departs from it: with the wait flag set, a getter that reads
`false` and a setter that fails, `toggle` reports the failed write and goes on to poll: after
the failed `set(true)` it makes four more rounds of one 900 ms delay and one `get`. -/
theorem toggle_polls_after_failed_write :
    (failingSetterEndpoint.get ()).1 = (false, none)
    ∧ (failingSetterEndpoint.setter true ()).1 = some "exit status 1"
    ∧ (failingSetterEndpoint.toggle (fun _ st => st) true ()).2
      = [.get, .set true, .logError "CantToggleFnlock",
          .logTrace "FnLock state pushed, will wait for it to be set",
          .sleep 900, .logTrace "checking state, attempt", .get, .logTrace "not set yet",
          .sleep 900, .logTrace "checking state, attempt", .get, .logTrace "not set yet",
          .sleep 900, .logTrace "checking state, attempt", .get, .logTrace "not set yet",
          .sleep 900, .logTrace "checking state, attempt", .get, .logTrace "not set yet",
          .logTrace "alright, going on"] :=
  ⟨rfl, rfl, rfl⟩

/-- C12: a failed read aborts the fn-lock toggle with no write. For every getter/setter pair
and every value of the wait flag, if the initial `get` returns an error, `toggle` makes that
one `get`, reports the failure and returns: no `set`, no confirmation `get`, no delay, and the
world is the one the `get` left. -/
theorem toggle_read_failure {σ : Type} (sfe : splitFnlockEndpoint σ) (sleep : Nat → σ → σ)
    (wait : Bool) (st : σ) (h : (sfe.get st).1.2 ≠ none) :
    (sfe.toggle sleep wait st).2 = [.get, .logError "CantReadFnlock"]
    ∧ calls (sfe.toggle sleep wait st).2 = [.get]
    ∧ (sfe.toggle sleep wait st).1 = (sfe.get st).2 := by
  cases he : (sfe.get st).1.2 with
  | none => exact absurd he h
  | some e =>
    have : sfe.toggle sleep wait st = ((sfe.get st).2, [.get, .logError "CantReadFnlock"]) := by
      simp only [splitFnlockEndpoint.toggle, he]
    rw [this]
    exact ⟨rfl, rfl, rfl⟩

/-- C12, on an endpoint whose getter fails, with the wait flag set. -/
theorem toggle_read_failure_witness :
    (failingGetterEndpoint.get ()).1.2 ≠ none
    ∧ calls (failingGetterEndpoint.toggle (fun _ st => st) true ()).2 = [.get] :=
  ⟨by decide, (toggle_read_failure failingGetterEndpoint (fun _ st => st) true ()
    (by decide)).2.1⟩

/-- C13: confirmation polling is bounded and stops early. When the wait flag is set, the
initial `get` succeeds with state `s` and the `set` of `!s` succeeds, `toggle` then makes `k`
rounds of one 900 ms delay followed by one `get`, and no `set`; `k` is between 1 and 4, no
confirmation `get` before the `k`-th returns no error and a state different from `s`, and the
`k`-th does so whenever `k < 4`. -/
theorem toggle_polling {σ : Type} (sfe : splitFnlockEndpoint σ) (sleep : Nat → σ → σ)
    (st : σ) (h1 : (sfe.get st).1.2 = none)
    (h2 : (sfe.setter (!(sfe.get st).1.1) (sfe.get st).2).1 = none) :
    calls (sfe.toggle sleep true st).2
      = [.get, .set (!(sfe.get st).1.1)]
        ++ (List.replicate
            (confirmRounds sfe sleep (sfe.get st).1.1
              (sfe.setter (!(sfe.get st).1.1) (sfe.get st).2).2)
            [Event.sleep 900, Event.get]).flatten
    ∧ 1 ≤ confirmRounds sfe sleep (sfe.get st).1.1
          (sfe.setter (!(sfe.get st).1.1) (sfe.get st).2).2
    ∧ confirmRounds sfe sleep (sfe.get st).1.1
          (sfe.setter (!(sfe.get st).1.1) (sfe.get st).2).2 ≤ 4
    ∧ (∀ i, 1 ≤ i → i < confirmRounds sfe sleep (sfe.get st).1.1
          (sfe.setter (!(sfe.get st).1.1) (sfe.get st).2).2 →
        ¬ ((confirmGet sfe sleep i (sfe.setter (!(sfe.get st).1.1) (sfe.get st).2).2).1
              ≠ (sfe.get st).1.1
          ∧ (confirmGet sfe sleep i (sfe.setter (!(sfe.get st).1.1) (sfe.get st).2).2).2
              = none))
    ∧ (confirmRounds sfe sleep (sfe.get st).1.1
          (sfe.setter (!(sfe.get st).1.1) (sfe.get st).2).2 < 4 →
        (confirmGet sfe sleep (confirmRounds sfe sleep (sfe.get st).1.1
            (sfe.setter (!(sfe.get st).1.1) (sfe.get st).2).2)
          (sfe.setter (!(sfe.get st).1.1) (sfe.get st).2).2).1 ≠ (sfe.get st).1.1
        ∧ (confirmGet sfe sleep (confirmRounds sfe sleep (sfe.get st).1.1
            (sfe.setter (!(sfe.get st).1.1) (sfe.get st).2).2)
          (sfe.setter (!(sfe.get st).1.1) (sfe.get st).2).2).2 = none) := by
  refine ⟨?_, confirmRounds_spec sfe sleep _ _⟩
  simp only [splitFnlockEndpoint.toggle, h1, h2, if_true]
  rw [calls_append, calls_pollLoop, calls_append]
  simp [calls]

/-- C13, on an endpoint over a counter: the state reads `true` from the third `get` on, so the
second confirmation `get` is the first to differ from the initial `false`: two rounds. -/
theorem toggle_polling_witness :
    (slowEndpoint.get 0).1.2 = none
    ∧ (slowEndpoint.setter (!(slowEndpoint.get 0).1.1) (slowEndpoint.get 0).2).1 = none
    ∧ confirmRounds slowEndpoint (fun _ n => n) (slowEndpoint.get 0).1.1
        (slowEndpoint.setter (!(slowEndpoint.get 0).1.1) (slowEndpoint.get 0).2).2 = 2
    ∧ calls (slowEndpoint.toggle (fun _ n => n) true 0).2
      = [.get, .set (!(slowEndpoint.get 0).1.1)]
        ++ (List.replicate
            (confirmRounds slowEndpoint (fun _ n => n) (slowEndpoint.get 0).1.1
              (slowEndpoint.setter (!(slowEndpoint.get 0).1.1) (slowEndpoint.get 0).2).2)
            [Event.sleep 900, Event.get]).flatten :=
  ⟨rfl, rfl, by decide, (toggle_polling slowEndpoint (fun _ n => n) 0 rfl rfl).1⟩

/-- C14: when the wait flag is false and the initial `get` succeeds with state `s`, `toggle`
makes exactly one `get` and exactly one `set`, the `set` being called with `!s`, and no delay,
whether or not the `set` succeeds; the world is the one the `set` left. -/
theorem toggle_no_wait {σ : Type} (sfe : splitFnlockEndpoint σ) (sleep : Nat → σ → σ)
    (st : σ) (h : (sfe.get st).1.2 = none) :
    calls (sfe.toggle sleep false st).2 = [.get, .set (!(sfe.get st).1.1)]
    ∧ (sfe.toggle sleep false st).1 = (sfe.setter (!(sfe.get st).1.1) (sfe.get st).2).2 := by
  simp only [splitFnlockEndpoint.toggle, h, Bool.false_eq_true, if_false]
  cases (sfe.setter (!(sfe.get st).1.1) (sfe.get st).2).1 <;> simp [calls]

/-- C14, on the endpoint whose setter fails. -/
theorem toggle_no_wait_witness :
    (failingSetterEndpoint.get ()).1.2 = none
    ∧ calls (failingSetterEndpoint.toggle (fun _ st => st) false ()).2 = [.get, .set true] :=
  ⟨rfl, (toggle_no_wait failingSetterEndpoint (fun _ st => st) () rfl).1⟩

/-- C15: the writability probe. For every getter/setter pair, `isWritable` returns `false`
without calling the setter when `get` returns an error; otherwise it calls the setter exactly
once, with exactly the state just read, and returns `true` if and only if that `set` returns no
error. -/
theorem isWritable_probe {σ : Type} (sfe : splitFnlockEndpoint σ) (st : σ) :
    ((sfe.get st).1.2 ≠ none →
      sfe.isWritable st = (false, (sfe.get st).2, [.get]))
    ∧ ((sfe.get st).1.2 = none →
      (sfe.isWritable st).2.2 = [.get, .set (sfe.get st).1.1]
      ∧ ((sfe.isWritable st).1 = true ↔ (sfe.setter (sfe.get st).1.1 (sfe.get st).2).1 = none)
      ∧ (sfe.isWritable st).2.1 = (sfe.setter (sfe.get st).1.1 (sfe.get st).2).2) := by
  constructor
  · intro h
    cases he : (sfe.get st).1.2 with
    | none => exact absurd he h
    | some e => simp only [splitFnlockEndpoint.isWritable, he]
  · intro h
    simp only [splitFnlockEndpoint.isWritable, h]
    cases (sfe.setter (sfe.get st).1.1 (sfe.get st).2).1 <;> simp

/-- C15, on the endpoint whose setter fails: one `get`, one `set(false)`, answer `false`. -/
theorem isWritable_probe_witness :
    (failingSetterEndpoint.get ()).1.2 = none
    ∧ (failingSetterEndpoint.isWritable ()).2.2 = [.get, .set false]
    ∧ (failingSetterEndpoint.isWritable ()).1 = false :=
  ⟨rfl, ((isWritable_probe failingSetterEndpoint ()).2 rfl).1, rfl⟩

/-- C16: the fallback threshold endpoint `splitThreshEndpoint{zeroGetter, errSetter}` is
constant. On every call and in every world its `get` returns `min = 0`, `max = 100` and no
error, and its `write(min, max)` returns a non-nil error for every `min` and `max`; neither
touches the world. -/
theorem fallbackThreshEndpoint_constant (σ : Type) (st : σ) (min max : Int) :
    (fallbackThreshEndpoint σ).get st = ((0, 100, none), st)
    ∧ ((fallbackThreshEndpoint σ).write min max st).1 ≠ none
    ∧ (fallbackThreshEndpoint σ).write min max st = (some "not implemented", st) :=
  ⟨rfl, by simp [fallbackThreshEndpoint, splitThreshEndpoint.write, errSetter], rfl⟩

/-- C17: guaranteed teardown of the log capture. On every path of `readFromLog` on which
`cmdLog.Start()` succeeded, the last event before the return is the kill signal to the log
capture, sent exactly once, and the world returned is the one the signal left. In particular
when the triggering subprocess fails, `readFromLog` returns its error and an empty result, and
the log capture is still signalled. -/
theorem readFromLog_teardown {σ : Type} (w : LogCapture σ) (st : σ)
    (h : (w.startLog st).1 = none) :
    (∃ tr : List Event, (readFromLog w st).trace = tr ++ [.signalKill]
      ∧ Event.signalKill ∉ tr ∧ Event.startLog ∈ tr)
    ∧ (∃ st1 : σ, (readFromLog w st).world = w.signalKill st1)
    ∧ (∀ e, (w.runIoio (w.sleep 200 (w.startLog st).2)).1 = some e →
        (readFromLog w st).result = []
        ∧ (readFromLog w st).err = some e
        ∧ (readFromLog w st).trace
          = [.startLog, .sleep 200, .runIoio, .logError "CantRunIoio",
              .logTrace "Killing the log output process...", .signalKill]) := by
  cases hr : (w.runIoio (w.sleep 200 (w.startLog st).2)).1 with
  | some e =>
    have ht : (readFromLog w st).trace = [.startLog, .sleep 200, .runIoio,
        .logError "CantRunIoio", .logTrace "Killing the log output process..."]
        ++ [.signalKill] := by
      simp only [readFromLog, h, hr]
      rfl
    refine ⟨⟨_, ht, by decide, by decide⟩, ⟨_, by simp only [readFromLog, h, hr]; rfl⟩, ?_⟩
    intro e2 he2
    cases he2
    simp [readFromLog, h, hr]
  | none =>
    have ht : (readFromLog w st).trace = [.startLog, .sleep 200, .runIoio, .sleep 500,
        .readOut, .logTrace "Read from the log: %s",
        .logTrace "Killing the log output process..."] ++ [.signalKill] := by
      simp only [readFromLog, h, hr]
      rfl
    refine ⟨⟨_, ht, by decide, by decide⟩, ⟨_, by simp only [readFromLog, h, hr]; rfl⟩, ?_⟩
    intro e2 he2
    cases he2

/-- C17, on a log capture that starts and a triggering subprocess that fails. -/
theorem readFromLog_teardown_witness :
    (failingTrigger.startLog ()).1 = none
    ∧ (readFromLog failingTrigger ()).err = some "exit status 1"
    ∧ (readFromLog failingTrigger ()).result = []
    ∧ ∃ tr : List Event, (readFromLog failingTrigger ()).trace = tr ++ [.signalKill]
      ∧ Event.signalKill ∉ tr ∧ Event.startLog ∈ tr :=
  ⟨rfl, rfl, rfl, (readFromLog_teardown failingTrigger () rfl).1⟩

/-! ## The fallback of the encoder -/

/-- Only zero is written `"0"`. -/
theorem decimalString_eq_zero (n : Nat) (h : n < 2 ^ 64) :
    decimalString n = lit "0" ↔ n = 0 := by
  constructor
  · intro e
    by_contra hn
    rw [← FormatInt_decimal n h] at e
    have hneg : ¬ ((n : Int) < 0) := by omega
    simp only [FormatInt, hneg, if_false, Int.natAbs_ofNat] at e
    obtain ⟨d, rest, hd, hpos, hf⟩ := formatBits_head 64 n [] h
    rw [hf] at e
    have hd0 := hpos (by omega)
    have h48 : lit "0" = [48] := by decide
    rw [h48] at e
    have := (List.cons.inj e).1
    unfold digitByte at this
    split at this <;> omega
  · rintro rfl
    decide

/-- C20: the exact domain of the `"0"` fallback of the encoder. For every `min` and `max` in
0..255, `threshToHexArg min max` is the string `"0"` if and only if `max ≥ 128` or
`min = max = 0`; for `max ≤ 127` the hex string `MAXMIN0000` parses as a signed 32-bit integer,
to `max * 2^24 + min * 2^16`, and the result is the decimal string of that number. -/
theorem threshToHexArg_zero_domain (min max : Int) (hmin0 : 0 ≤ min) (hmin : min ≤ 255)
    (hmax0 : 0 ≤ max) (hmax : max ≤ 255) :
    (threshToHexArg min max = lit "0" ↔ (128 ≤ max ∨ (min = 0 ∧ max = 0)))
    ∧ (max ≤ 127 →
        ParseInt (sprintf02x max ++ sprintf02x min ++ lit "0000") 16 32
          = .ok (max * 2 ^ 24 + min * 2 ^ 16)
        ∧ threshToHexArg min max = decimalString (max * 2 ^ 24 + min * 2 ^ 16).toNat) := by
  obtain ⟨b, rfl⟩ := Int.eq_ofNat_of_zero_le hmin0
  obtain ⟨a, rfl⟩ := Int.eq_ofNat_of_zero_le hmax0
  have ha : a ≤ 255 := by omega
  have hb : b ≤ 255 := by omega
  have e := threshToHexArg_nat a b ha hb
  constructor
  · by_cases h : a ≥ 128
    · rw [if_pos h] at e
      rw [e]
      exact ⟨fun _ => Or.inl (by omega), fun _ => rfl⟩
    · rw [if_neg h] at e
      rw [e, decimalString_eq_zero _ (by norm_num; omega)]
      constructor
      · intro hz
        right
        constructor <;> omega
      · rintro (h1 | ⟨h1, h2⟩)
        · omega
        · have h1 : b = 0 := by exact_mod_cast h1
          have h2 : a = 0 := by exact_mod_cast h2
          subst h1 h2
          rfl
  · intro h
    have h127 : ¬ a ≥ 128 := by omega
    have hp := ParseInt_argHex a b ha hb
    rw [if_neg h127] at hp e
    have h1 := sprintf02x_byte (a : Int) (by omega) (by omega)
    have h2 := sprintf02x_byte (b : Int) (by omega) (by omega)
    simp only [Int.toNat_ofNat] at h1 h2
    refine ⟨?_, by rw [toNat_encoded, e]⟩
    rw [h1, h2]
    simp only [List.cons_append, List.nil_append] at hp ⊢
    rw [hp]
    congr 1

/-- C20, at `min = 0`, `max = 0`: the result is `"0"` although the parse succeeds. -/
theorem threshToHexArg_zero_domain_witness :
    (0 : Int) ≤ 0 ∧ (0 : Int) ≤ 255
    ∧ (threshToHexArg 0 0 = lit "0" ↔ ((128 : Int) ≤ 0 ∨ ((0 : Int) = 0 ∧ (0 : Int) = 0))) :=
  ⟨by decide, by decide,
    (threshToHexArg_zero_domain 0 0 (by decide) (by decide) (by decide) (by decide)).1⟩

/-! ## Claims on counting and on the marker -/

/-- C18: the exact-count rule. For every fragment list in which each fragment containing an
`'x'` has a valid base-16 numeral within the signed 32-bit range after its first `'x'`,
`getHexValues l num` succeeds if and only if the number of fragments containing an `'x'` equals
`num`, and on success returns exactly the values of those numerals in encounter order, a list
of length `num`. -/
theorem getHexValues_exact_count (l : List GoString) (num : Int)
    (h : ∀ s ∈ l, 120 ∈ s → ∃ v, numeralAfterX s = some v) :
    ((∃ r, getHexValues l num = .ok r) ↔ ((valueTokens l).length : Int) = num)
    ∧ (∀ r, getHexValues l num = .ok r →
        r.map some = (valueTokens l).map numeralAfterX ∧ (r.length : Int) = num) := by
  have hfun : (valueTokens l).map tokenValue = (valueTokens l).map numeralAfterX :=
    List.map_congr_left (fun s _ => tokenValue_eq_numeral s)
  have hall : ∃ r0 : List Int, (valueTokens l).map numeralAfterX = r0.map some := by
    have hv : ∀ s ∈ valueTokens l, ∃ v, numeralAfterX s = some v := by
      intro s hs
      simp only [valueTokens, List.mem_filter, decide_eq_true_eq] at hs
      exact h s hs.1 hs.2
    generalize valueTokens l = vt at hv
    induction vt with
    | nil => exact ⟨[], rfl⟩
    | cons s rest ih =>
      obtain ⟨v, hv1⟩ := hv s (by simp)
      obtain ⟨r0, hr0⟩ := ih (fun t ht => hv t (by simp [ht]))
      exact ⟨v :: r0, by simp [hv1, hr0]⟩
  obtain ⟨r0, hr0⟩ := hall
  have hlen0 : r0.length = (valueTokens l).length := by
    have := congrArg List.length hr0
    simpa using this.symm
  constructor
  · constructor
    · rintro ⟨r, hr⟩
      obtain ⟨h1, h2⟩ := (getHexValues_ok l num r).mp hr
      rw [hfun] at h2
      have := congrArg List.length h2
      simp only [List.length_map] at this
      rw [this]
      exact h1
    · intro hn
      refine ⟨r0, (getHexValues_ok l num r0).mpr ⟨?_, ?_⟩⟩
      · rw [hlen0]; exact hn
      · rw [hfun, hr0]
  · intro r hr
    obtain ⟨h1, h2⟩ := (getHexValues_ok l num r).mp hr
    rw [hfun] at h2
    exact ⟨h2.symm, h1⟩

/-- C18, on the fragments `["", " 0x50", " 0x3c", " end"]` with the expected count 2. -/
theorem getHexValues_exact_count_witness :
    (∀ s ∈ [lit "", lit " 0x50", lit " 0x3c", lit " end"], 120 ∈ s →
      ∃ v, numeralAfterX s = some v)
    ∧ ((valueTokens [lit "", lit " 0x50", lit " 0x3c", lit " end"]).length : Int) = 2
    ∧ getHexValues [lit "", lit " 0x50", lit " 0x3c", lit " end"] 2 = .ok [80, 60]
    ∧ ((∃ r, getHexValues [lit "", lit " 0x50", lit " 0x3c", lit " end"] 2 = .ok r)
      ↔ ((valueTokens [lit "", lit " 0x50", lit " 0x3c", lit " end"]).length : Int) = 2) :=
  have hyp : ∀ s ∈ [lit "", lit " 0x50", lit " 0x3c", lit " end"], 120 ∈ s →
      ∃ v, numeralAfterX s = some v := by
    intro s hs hx
    simp only [List.mem_cons, List.mem_singleton, List.not_mem_nil, or_false] at hs
    rcases hs with rfl | rfl | rfl | rfl
    · exact absurd hx (by decide)
    · exact ⟨80, by decide⟩
    · exact ⟨60, by decide⟩
    · exact absurd hx (by decide)
  ⟨hyp, by decide, rfl,
    (getHexValues_exact_count [lit "", lit " 0x50", lit " 0x3c", lit " end"] 2 hyp).1⟩

theorem getThreshFromLog_eq (log : GoString) :
    getThreshFromLog log =
      if (stringsSplit log (lit "Reading (hexadecimal values):")).length < 2 then
        .error failLog
      else extractThresh
        ((stringsSplit log (lit "Reading (hexadecimal values):")).getD 1 []) := rfl

theorem getFnlockFromLog_eq (log : GoString) :
    getFnlockFromLog log =
      if (stringsSplit log (lit "Reading Fn-Lock state")).length < 2 then .error failLog
      else extractFnlock ((stringsSplit log (lit "Reading Fn-Lock state")).getD 1 []) := rfl

/-- C19 as stated fails when the marker occurs twice. The text that follows the first
occurrence holds the second marker, whose `hexadecimal` has an `'x'`: extracting 2 values from
all of it fails, while `getThreshFromLog` reads `min = 80`, `max = 60` from the text before the
second marker. -/
theorem getThreshFromLog_stops_at_second_marker :
    FirstOccurrence (lit "Reading (hexadecimal values):")
      (lit "Reading (hexadecimal values):, 0x50, 0x3c, Reading (hexadecimal values):, 0x28, 0x46")
      [] (lit ", 0x50, 0x3c, Reading (hexadecimal values):, 0x28, 0x46")
    ∧ getThreshFromLog
        (lit "Reading (hexadecimal values):, 0x50, 0x3c, Reading (hexadecimal values):, 0x28, 0x46")
      = .ok { min := 80, max := 60 }
    ∧ extractThresh (lit ", 0x50, 0x3c, Reading (hexadecimal values):, 0x28, 0x46")
      = .error failHex :=
  ⟨⟨by decide, fun _ _ _ => Nat.zero_le _⟩, rfl, rfl⟩

/-- C19, amended: the parsers split at the first occurrence of the marker and parse the text
up to the next occurrence of the marker. For every log text containing the marker, with `rest`
the text that follows its first occurrence: if the marker does not occur in `rest`,
`getThreshFromLog log` is the result of splitting `rest` on commas and extracting 2 values;
if it does, `getThreshFromLog log` is that result for the part of `rest` before the first
occurrence of the marker in `rest`. Likewise `getFnlockFromLog` with its marker and 1 value. -/
theorem parsers_first_segment (log pre rest : GoString) :
    (FirstOccurrence (lit "Reading (hexadecimal values):") log pre rest →
      (¬ lit "Reading (hexadecimal values):" <:+: rest →
        getThreshFromLog log = extractThresh rest)
      ∧ (∀ seg rest2, FirstOccurrence (lit "Reading (hexadecimal values):") rest seg rest2 →
        getThreshFromLog log = extractThresh seg))
    ∧ (FirstOccurrence (lit "Reading Fn-Lock state") log pre rest →
      (¬ lit "Reading Fn-Lock state" <:+: rest →
        getFnlockFromLog log = extractFnlock rest)
      ∧ (∀ seg rest2, FirstOccurrence (lit "Reading Fn-Lock state") rest seg rest2 →
        getFnlockFromLog log = extractFnlock seg)) := by
  constructor
  · intro h
    obtain ⟨h2, hone, htwo⟩ := split_second _ log pre rest (by decide) h
    have hlt : ¬ (stringsSplit log (lit "Reading (hexadecimal values):")).length < 2 := by
      omega
    constructor
    · intro hno
      rw [getThreshFromLog_eq, if_neg hlt, hone hno]
    · intro seg rest2 hs
      rw [getThreshFromLog_eq, if_neg hlt, htwo seg rest2 hs]
  · intro h
    obtain ⟨h2, hone, htwo⟩ := split_second _ log pre rest (by decide) h
    have hlt : ¬ (stringsSplit log (lit "Reading Fn-Lock state")).length < 2 := by omega
    constructor
    · intro hno
      rw [getFnlockFromLog_eq, if_neg hlt, hone hno]
    · intro seg rest2 hs
      rw [getFnlockFromLog_eq, if_neg hlt, htwo seg rest2 hs]

/-- C19 amended, on a log with two threshold readings and on a log with one fn-lock reading. -/
theorem parsers_first_segment_witness :
    FirstOccurrence (lit "Reading (hexadecimal values):")
      (lit "Reading (hexadecimal values):, 0x50, 0x3c, Reading (hexadecimal values):, 0x28, 0x46")
      [] (lit ", 0x50, 0x3c, Reading (hexadecimal values):, 0x28, 0x46")
    ∧ FirstOccurrence (lit "Reading (hexadecimal values):")
      (lit ", 0x50, 0x3c, Reading (hexadecimal values):, 0x28, 0x46")
      (lit ", 0x50, 0x3c, ") (lit ", 0x28, 0x46")
    ∧ getThreshFromLog
        (lit "Reading (hexadecimal values):, 0x50, 0x3c, Reading (hexadecimal values):, 0x28, 0x46")
      = extractThresh (lit ", 0x50, 0x3c, ")
    ∧ extractThresh (lit ", 0x50, 0x3c, ") = .ok { min := 80, max := 60 }
    ∧ FirstOccurrence (lit "Reading Fn-Lock state") (lit "log: Reading Fn-Lock state, 0x1, ")
      (lit "log: ") (lit ", 0x1, ")
    ∧ ¬ lit "Reading Fn-Lock state" <:+: lit ", 0x1, "
    ∧ getFnlockFromLog (lit "log: Reading Fn-Lock state, 0x1, ") = extractFnlock (lit ", 0x1, ")
    ∧ extractFnlock (lit ", 0x1, ") = .ok true :=
  have f1 : FirstOccurrence (lit "Reading (hexadecimal values):")
      (lit "Reading (hexadecimal values):, 0x50, 0x3c, Reading (hexadecimal values):, 0x28, 0x46")
      [] (lit ", 0x50, 0x3c, Reading (hexadecimal values):, 0x28, 0x46") :=
    ⟨by decide, fun _ _ _ => Nat.zero_le _⟩
  have f2 : FirstOccurrence (lit "Reading (hexadecimal values):")
      (lit ", 0x50, 0x3c, Reading (hexadecimal values):, 0x28, 0x46")
      (lit ", 0x50, 0x3c, ") (lit ", 0x28, 0x46") :=
    firstOccurrence_of_index _ _ _ _ (by decide) (by decide)
  have f3 : FirstOccurrence (lit "Reading Fn-Lock state")
      (lit "log: Reading Fn-Lock state, 0x1, ") (lit "log: ") (lit ", 0x1, ") :=
    firstOccurrence_of_index _ _ _ _ (by decide) (by decide)
  have n3 : ¬ lit "Reading Fn-Lock state" <:+: lit ", 0x1, " := by decide
  ⟨f1, f2,
    ((parsers_first_segment _ [] _).1 f1).2 _ _ f2,
    rfl, f3, n3,
    ((parsers_first_segment _ (lit "log: ") _).2 f3).1 n3,
    rfl⟩

/-! ## The order of the threshold tokens -/

/-- An occurrence found by `strings.Index`: the text splits there. -/
theorem indexFrom_occ (sep : GoString) : ∀ (s : GoString) (k : Nat),
    0 ≤ indexFrom sep s k →
    ∃ pre post : GoString, s = pre ++ sep ++ post
      ∧ indexFrom sep s k = ((k + pre.length : Nat) : Int) := by
  intro s
  induction s with
  | nil =>
    intro k h
    by_cases h0 : sep = []
    · exact ⟨[], [], by simp [h0], by simp [indexFrom, h0]⟩
    · rw [indexFrom_nil_right sep h0] at h
      omega
  | cons c cs ih =>
    intro k h
    rw [indexFrom] at h ⊢
    by_cases hp : sep.isPrefixOf (c :: cs) = true
    · obtain ⟨q, hq⟩ := List.isPrefixOf_iff_prefix.mp hp
      exact ⟨[], q, by simp [hq], by simp [hp]⟩
    · rw [if_neg hp] at h ⊢
      obtain ⟨pre, post, hs, hi⟩ := ih (k + 1) (by omega)
      refine ⟨c :: pre, post, by simp [hs], ?_⟩
      rw [hi, List.length_cons]
      congr 1
      omega

/-- A text that contains `sep` has a first occurrence of it. -/
theorem firstOccurrence_exists (sep s : GoString) (h : sep <:+: s) :
    ∃ pre post : GoString, FirstOccurrence sep s pre post := by
  obtain ⟨p, q, hpq⟩ := h
  have hle := (indexFrom_le sep p q 0).1
  rw [hpq] at hle
  obtain ⟨pre, post, hs, hi⟩ := indexFrom_occ sep s 0 (by simpa using hle)
  exact ⟨pre, post, firstOccurrence_of_index sep s pre post hs
    (by rw [stringsIndex, hi]; simp)⟩

/-- The thresholds extracted from a text are the values of its first two value-bearing
tokens, in that order; there is no third one. -/
theorem extractThresh_ok (seg : GoString) (t : Thresh) (h : extractThresh seg = .ok t) :
    ∃ s1 s2 : GoString, valueTokens (stringsSplit seg (lit ",")) = [s1, s2]
      ∧ tokenValue s1 = some t.min ∧ tokenValue s2 = some t.max := by
  unfold extractThresh at h
  split at h
  · cases h
  · rename_i val hv
    obtain ⟨hlen, hmap⟩ := (getHexValues_ok _ _ _).mp hv
    have hlen : val.length = 2 := by exact_mod_cast hlen
    obtain ⟨a, b, rfl⟩ := List.length_eq_two.mp hlen
    simp only [Except.ok.injEq] at h
    subst h
    have hl2 : (valueTokens (stringsSplit seg (lit ","))).length = 2 := by
      have := congrArg List.length hmap
      simpa using this
    obtain ⟨s1, s2, hs⟩ := List.length_eq_two.mp hl2
    rw [hs] at hmap
    simp only [List.map_cons, List.map_nil, List.cons.injEq, and_true] at hmap
    exact ⟨s1, s2, hs, by simpa using hmap.1, by simpa using hmap.2⟩

/-- C4 as stated fails on `marker, 0x50, 0x3c`: `getThreshFromLog` succeeds, the first
value-bearing token after the marker has the value 80 and the second 60, and the returned `max`
is 60, not 80: the first token is the returned `min`. And "after the marker" ends at the next
marker: on `marker, 0x50, 0x3cmarker, 0x28` the parser returns the same pair, while in the whole
text after the first marker the second value-bearing fragment has no value. -/
theorem getThreshFromLog_first_token_is_min :
    (∃ t : Thresh,
      getThreshFromLog (lit "Reading (hexadecimal values):, 0x50, 0x3c") = .ok t
      ∧ (valueTokens (stringsSplit (lit ", 0x50, 0x3c") (lit ","))).map tokenValue
        = [some 80, some 60]
      ∧ t.max ≠ 80 ∧ t.min ≠ 60 ∧ t.min = 80 ∧ t.max = 60)
    ∧ FirstOccurrence (lit "Reading (hexadecimal values):")
        (lit "Reading (hexadecimal values):, 0x50, 0x3cReading (hexadecimal values):, 0x28")
        [] (lit ", 0x50, 0x3cReading (hexadecimal values):, 0x28")
    ∧ getThreshFromLog
        (lit "Reading (hexadecimal values):, 0x50, 0x3cReading (hexadecimal values):, 0x28")
      = .ok { min := 80, max := 60 }
    ∧ (valueTokens (stringsSplit (lit ", 0x50, 0x3cReading (hexadecimal values):, 0x28")
        (lit ","))).map tokenValue = [some 80, none, some 40] :=
  ⟨⟨{ min := 80, max := 60 }, rfl, by decide, by decide, by decide, rfl, rfl⟩,
    ⟨by decide, fun _ _ _ => Nat.zero_le _⟩, rfl, by decide⟩

/-- C4, amended: threshold tokens are read in (min, max) order. For every log text on which
`getThreshFromLog` succeeds, take the text `seg` that stands between the first occurrence of
the marker `"Reading (hexadecimal values):"` and the next occurrence of the marker (the end of
the log if there is none) and split it on commas: the returned `min` is the value of the first
value-bearing token of `seg` and the returned `max` is the value of the second one. -/
theorem getThreshFromLog_order (log : GoString) (t : Thresh)
    (h : getThreshFromLog log = .ok t) :
    ∃ pre rest seg : GoString,
      FirstOccurrence (lit "Reading (hexadecimal values):") log pre rest
      ∧ ((¬ lit "Reading (hexadecimal values):" <:+: rest ∧ seg = rest)
        ∨ ∃ rest2, FirstOccurrence (lit "Reading (hexadecimal values):") rest seg rest2)
      ∧ ∃ (s1 s2 : GoString) (more : List GoString),
        valueTokens (stringsSplit seg (lit ",")) = s1 :: s2 :: more
        ∧ tokenValue s1 = some t.min ∧ tokenValue s2 = some t.max := by
  have hin : lit "Reading (hexadecimal values):" <:+: log := by
    by_contra hno
    rw [getThreshFromLog_eq, stringsSplit_of_not_infix _ _ hno] at h
    simp at h
  obtain ⟨pre, rest, hf⟩ := firstOccurrence_exists _ log hin
  obtain ⟨h2, hone, htwo⟩ := split_second _ log pre rest (by decide) hf
  have hlt : ¬ (stringsSplit log (lit "Reading (hexadecimal values):")).length < 2 := by
    omega
  rw [getThreshFromLog_eq, if_neg hlt] at h
  by_cases hr : lit "Reading (hexadecimal values):" <:+: rest
  · obtain ⟨seg, rest2, hf2⟩ := firstOccurrence_exists _ rest hr
    rw [htwo seg rest2 hf2] at h
    obtain ⟨s1, s2, hs, h1, h2⟩ := extractThresh_ok seg t h
    exact ⟨pre, rest, seg, hf, Or.inr ⟨rest2, hf2⟩, s1, s2, [], hs, h1, h2⟩
  · rw [hone hr] at h
    obtain ⟨s1, s2, hs, h1, h2⟩ := extractThresh_ok rest t h
    exact ⟨pre, rest, rest, hf, Or.inl ⟨hr, rfl⟩, s1, s2, [], hs, h1, h2⟩

/-- C4 amended, on a log with two readings, `marker, 0x28, 0x46, marker, 0x50, 0x3c`: the
parser returns `min = 40`, `max = 70`, the values of the first two tokens before the second
marker. -/
theorem getThreshFromLog_order_witness :
    getThreshFromLog
        (lit "Reading (hexadecimal values):, 0x28, 0x46, Reading (hexadecimal values):, 0x50, 0x3c")
      = .ok { min := 40, max := 70 }
    ∧ ∃ pre rest seg : GoString,
      FirstOccurrence (lit "Reading (hexadecimal values):")
        (lit "Reading (hexadecimal values):, 0x28, 0x46, Reading (hexadecimal values):, 0x50, 0x3c")
        pre rest
      ∧ ((¬ lit "Reading (hexadecimal values):" <:+: rest ∧ seg = rest)
        ∨ ∃ rest2, FirstOccurrence (lit "Reading (hexadecimal values):") rest seg rest2)
      ∧ ∃ (s1 s2 : GoString) (more : List GoString),
        valueTokens (stringsSplit seg (lit ",")) = s1 :: s2 :: more
        ∧ tokenValue s1 = some 40 ∧ tokenValue s2 = some 70 :=
  ⟨rfl, getThreshFromLog_order
    (lit "Reading (hexadecimal values):, 0x28, 0x46, Reading (hexadecimal values):, 0x50, 0x3c")
    { min := 40, max := 70 } rfl⟩

end Matebook
